import Mathlib

/-!
# Verification of the ScrapingAIEngine (src/unnamed/part_005)

Shallow embedding of the scraping engine: configuration validation, the
orchestrating `scrape` operation, metadata extraction, content
normalization (`extractTextContent`), the prompt pipeline, and structured
data extraction.  Strings are modelled as `List Char`; the JavaScript
regular-expression scans are modelled by dedicated recursive scanners that
mirror the left-to-right, non-overlapping matching of `String.replace`
and `RegExp.exec` loops.  Scanners that jump forward in the input use an
explicit fuel argument (initialised to the input length, which always
suffices since every step consumes at least one character) so that all
definitions compute by kernel reduction.
-/

set_option maxRecDepth 100000

namespace ScrapingEngine

abbrev Str := List Char

/-- JavaScript `\s` character class (also the set trimmed by `String.trim`):
whitespace and line terminators, including the Unicode space characters. -/
def isJsSpace (c : Char) : Bool :=
  c = ' ' || c = '\t' || c = '\n' || c = '\r' || c = '\x0b' || c = '\x0c' ||
  c = '\u00a0' || c = '\u1680' ||
  (0x2000 ≤ c.toNat && c.toNat ≤ 0x200a) ||
  c = '\u2028' || c = '\u2029' || c = '\u202f' || c = '\u205f' ||
  c = '\u3000' || c = '\ufeff'

/-- ASCII lower-casing of a character, as performed by the `/i` regex flag
and `String.prototype.toLowerCase` on ASCII input. -/
def lowerChar (c : Char) : Char :=
  match c with
  | 'A' => 'a' | 'B' => 'b' | 'C' => 'c' | 'D' => 'd' | 'E' => 'e'
  | 'F' => 'f' | 'G' => 'g' | 'H' => 'h' | 'I' => 'i' | 'J' => 'j'
  | 'K' => 'k' | 'L' => 'l' | 'M' => 'm' | 'N' => 'n' | 'O' => 'o'
  | 'P' => 'p' | 'Q' => 'q' | 'R' => 'r' | 'S' => 's' | 'T' => 't'
  | 'U' => 'u' | 'V' => 'v' | 'W' => 'w' | 'X' => 'x' | 'Y' => 'y'
  | 'Z' => 'z'
  | c => c

def lowerStr (l : Str) : Str := l.map lowerChar

/-- `pat` (given in lower case) is a case-insensitive prefix of `l`. -/
def ciPrefix : Str → Str → Bool
  | [], _ => true
  | _ :: _, [] => false
  | p :: ps, c :: cs => lowerChar c = p && ciPrefix ps cs

/-- The suffix of `l` following the first `'>'`, if any: this is where the
regex fragment `[^>]*>` resumes (greedy `[^>]*` runs up to the first `'>'`). -/
def afterFirstGt : Str → Option Str
  | [] => none
  | c :: rest => if c = '>' then some rest else afterFirstGt rest

/-- The suffix of `l` following the first case-insensitive occurrence of
`pat` (nonempty): this is where a lazy `[\s\S]*?lit` fragment resumes. -/
def afterFirstCI (pat : Str) : Str → Option Str
  | [] => none
  | c :: rest =>
    if ciPrefix pat (c :: rest) then some ((c :: rest).drop pat.length)
    else afterFirstCI pat rest

/-- The prefix of `l` strictly before the first case-insensitive occurrence
of `pat` (the lazily matched `[\s\S]*?` region). -/
def beforeFirstCI (pat : Str) : Str → Option Str
  | [] => none
  | c :: rest =>
    if ciPrefix pat (c :: rest) then some []
    else (beforeFirstCI pat rest).map (c :: ·)

/-- Fuelled worker for `replaceAll`; the fuel only bounds the number of
scan steps (one is consumed per step, and every step consumes at least one
input character, so fuel `l.length` always suffices). -/
def replaceAllGo (pat rep : Str) : Nat → Str → Str
  | _, [] => []
  | 0, l => l
  | fuel + 1, c :: rest =>
    if pat ≠ [] ∧ pat.isPrefixOf (c :: rest) then
      rep ++ replaceAllGo pat rep fuel ((c :: rest).drop pat.length)
    else
      c :: replaceAllGo pat rep fuel rest

/-- `replace(/pat/g, rep)` for a literal pattern: left-to-right,
non-overlapping replacement of every occurrence. -/
def replaceAll (pat rep l : Str) : Str := replaceAllGo pat rep l.length l

/-- `replace(/\s+/g, ' ')`: collapse each maximal whitespace run to a
single space. -/
def collapseWS : Str → Str
  | [] => []
  | [c] => if isJsSpace c then [' '] else [c]
  | c1 :: c2 :: rest =>
    if isJsSpace c1 then
      if isJsSpace c2 then collapseWS (c2 :: rest)
      else ' ' :: collapseWS (c2 :: rest)
    else c1 :: collapseWS (c2 :: rest)

def trimLeft (l : Str) : Str := l.dropWhile isJsSpace

def trimRight (l : Str) : Str := (l.reverse.dropWhile isJsSpace).reverse

/-- JavaScript `String.prototype.trim`. -/
def trimStr (l : Str) : Str := trimRight (trimLeft l)

/-- Fuelled worker for `replace(/<name[^>]*>[\s\S]*?<\/name>/gi, '')`
(`name` is `script` or `style`): at each position, the regex matches when
`<name` appears (case-insensitively), a `'>'` follows (greedy `[^>]*` up
to the first `'>'`), and a closing `</name>` occurs later (lazy
`[\s\S]*?`); the whole match is deleted and scanning resumes after the
closing tag.  A failed match moves the scan position one character. -/
def stripElemGo (name : Str) : Nat → Str → Str
  | _, [] => []
  | 0, l => l
  | fuel + 1, c :: rest =>
    if c = '<' ∧ ciPrefix name rest then
      match afterFirstGt (rest.drop name.length) with
      | some afterGt =>
        match afterFirstCI ('<' :: '/' :: (name ++ ['>'])) afterGt with
        | some afterClose => stripElemGo name fuel afterClose
        | none => c :: stripElemGo name fuel rest
      | none => c :: stripElemGo name fuel rest
    else c :: stripElemGo name fuel rest

def stripElem (name l : Str) : Str := stripElemGo name l.length l

/-- Fuelled worker for `replace(/<!--[\s\S]*?-->/g, '')`. -/
def stripCommentsGo : Nat → Str → Str
  | _, [] => []
  | 0, l => l
  | fuel + 1, c :: rest =>
    if ['<', '!', '-', '-'].isPrefixOf (c :: rest) then
      match afterFirstCI ['-', '-', '>'] ((c :: rest).drop 4) with
      | some after => stripCommentsGo fuel after
      | none => c :: stripCommentsGo fuel rest
    else c :: stripCommentsGo fuel rest

def stripComments (l : Str) : Str := stripCommentsGo l.length l

/-- Fuelled worker for `replace(/<[^>]+>/g, ' ')`: a match needs a `'<'`,
at least one following non-`'>'` character, and then a `'>'`; it is
replaced by a single space. -/
def stripTagsGo : Nat → Str → Str
  | _, [] => []
  | 0, l => l
  | fuel + 1, c :: rest =>
    if c = '<' then
      match rest with
      | [] => [c]
      | r :: _ =>
        if r = '>' then c :: stripTagsGo fuel rest
        else
          match afterFirstGt rest with
          | some after => ' ' :: stripTagsGo fuel after
          | none => c :: stripTagsGo fuel rest
    else c :: stripTagsGo fuel rest

def stripTags (l : Str) : Str := stripTagsGo l.length l

/-- `extractTextContent` (ScrapingAIEngine.extractTextContent): strips
script/style blocks and comments, applies the entity-decoding `replace`
chain exactly as written in the source (whose patterns are the literal
characters `&nbsp;`, `<`, `>`, `&`, `"`, `'`), strips remaining tags to a
space, collapses whitespace and trims. -/
def extractTextContent (html : Str) : Str :=
  let t1 := stripElem ['s', 'c', 'r', 'i', 'p', 't'] html
  let t2 := stripElem ['s', 't', 'y', 'l', 'e'] t1
  let t3 := stripComments t2
  let t4 := replaceAll ['&', 'n', 'b', 's', 'p', ';'] [' '] t3
  let t5 := replaceAll ['<'] ['<'] t4
  let t6 := replaceAll ['>'] ['>'] t5
  let t7 := replaceAll ['&'] ['&'] t6
  let t8 := replaceAll ['"'] ['"'] t7
  let t9 := replaceAll ['\''] ['\''] t8
  let t10 := stripTags t9
  trimStr (collapseWS t10)

/-! ## Attribute-capturing scans (metadata extraction) -/

def isQuote (c : Char) : Bool := c = '"' || c = '\''

/-- One match attempt of `/tag[^>]*attr=["']([^"']+)["'][^>]*>/i` at the
head of `l` (`tag` like `<img`, `attr` like `src=`).  The greedy `[^>]*`
before `attr=` backtracks from the longest position (bounded by the first
`'>'` after the tag literal); the quoted value is the maximal run of
non-quote characters; the match ends at the first `'>'` after the closing
quote.  Returns the captured value and the rest of the input. -/
def attrTry (tag attr : Str) (l : Str) : Option (Str × Str) :=
  if ciPrefix tag l then
    let rest := l.drop tag.length
    let g := (rest.takeWhile (· ≠ '>')).length
    ((List.range (g + 1)).reverse).findSome? fun p =>
      if ciPrefix attr (rest.drop p) then
        match (rest.drop (p + attr.length)).head? with
        | some q1 =>
          if isQuote q1 then
            let afterQ := rest.drop (p + attr.length + 1)
            let val := afterQ.takeWhile (fun c => !isQuote c)
            if val ≠ [] then
              match (afterQ.drop val.length).head? with
              | some q2 =>
                if isQuote q2 then
                  match afterFirstGt (afterQ.drop (val.length + 1)) with
                  | some after => some (val, after)
                  | none => none
                else none
              | none => none
            else none
          else none
        | none => none
      else none
  else none

/-- Fuelled `exec` loop collecting all captures of an attribute regex. -/
def attrScanGo (tag attr : Str) : Nat → Str → List Str
  | _, [] => []
  | 0, _ => []
  | fuel + 1, c :: rest =>
    match attrTry tag attr (c :: rest) with
    | some (val, after) => val :: attrScanGo tag attr fuel after
    | none => attrScanGo tag attr fuel rest

/-- All captures of `/<img[^>]*src=["']([^"']+)["'][^>]*>/gi` in order. -/
def imgSrcs (content : Str) : List Str :=
  attrScanGo ['<', 'i', 'm', 'g'] ['s', 'r', 'c', '='] content.length content

/-- All captures of `/<a[^>]*href=["']([^"']+)["'][^>]*>/gi` in order. -/
def aHrefs (content : Str) : List Str :=
  attrScanGo ['<', 'a'] ['h', 'r', 'e', 'f', '='] content.length content

/-- First capture of `/<title[^>]*>([^<]+)<\/title>/i`: the open tag runs
to the first `'>'`, the capture is a nonempty run of non-`'<'` characters,
and the literal `</title>` must follow immediately. -/
def titleScan : Str → Option Str
  | [] => none
  | c :: rest =>
    if c = '<' ∧ ciPrefix ['t', 'i', 't', 'l', 'e'] rest then
      match afterFirstGt (rest.drop 5) with
      | some afterGt =>
        let cap := afterGt.takeWhile (· ≠ '<')
        if cap ≠ [] ∧
            ciPrefix ['<', '/', 't', 'i', 't', 'l', 'e', '>'] (afterGt.drop cap.length) then
          some cap
        else titleScan rest
      | none => titleScan rest
    else titleScan rest

/-- One match attempt of
`/<meta[^>]*name=["']description["'][^>]*content=["']([^"']+)["']/i` at the
head of `l`: both greedy `[^>]*` gaps backtrack from their longest
positions (each bounded by the first following `'>'`); the two quotes of
each `["']…["']` pair are chosen independently. -/
def descTry (l : Str) : Option Str :=
  if ciPrefix ['<', 'm', 'e', 't', 'a'] l then
    let rest := l.drop 5
    let g := (rest.takeWhile (· ≠ '>')).length
    ((List.range (g + 1)).reverse).findSome? fun p =>
      if ciPrefix ['n', 'a', 'm', 'e', '='] (rest.drop p) ∧
          (rest.drop (p + 5)).head?.any isQuote ∧
          ciPrefix ['d', 'e', 's', 'c', 'r', 'i', 'p', 't', 'i', 'o', 'n'] (rest.drop (p + 6)) ∧
          (rest.drop (p + 17)).head?.any isQuote then
        let rest2 := rest.drop (p + 18)
        let g2 := (rest2.takeWhile (· ≠ '>')).length
        ((List.range (g2 + 1)).reverse).findSome? fun q =>
          if ciPrefix ['c', 'o', 'n', 't', 'e', 'n', 't', '='] (rest2.drop q) ∧
              (rest2.drop (q + 8)).head?.any isQuote then
            let val := (rest2.drop (q + 9)).takeWhile (fun c => !isQuote c)
            if val ≠ [] ∧ (rest2.drop (q + 9 + val.length)).head?.any isQuote then
              some val
            else none
          else none
      else none
  else none

/-- First capture of the description regex anywhere in the input. -/
def descScan : Str → Option Str
  | [] => none
  | c :: rest =>
    match descTry (c :: rest) with
    | some v => some v
    | none => descScan rest

/-! ## Prompt pipeline (applyPrompt and the registered transforms) -/

/-- The sentence terminators of `split(/[.!?。！？]+/)`. -/
def isTerminator (c : Char) : Bool :=
  c = '.' || c = '!' || c = '?' || c = '。' || c = '！' || c = '？'

mutual
/-- `content.split(/[.!?。！？]+/)`: pieces between maximal terminator
runs, keeping empty leading/trailing pieces exactly as JavaScript does.
`acc` is the reversed current piece. -/
def splitTermGo : Str → Str → List Str
  | [], acc => [acc.reverse]
  | c :: rest, acc =>
    if isTerminator c then acc.reverse :: splitTermAfter rest
    else splitTermGo rest (c :: acc)

/-- Skips the remainder of a terminator run, then resumes `splitTermGo`. -/
def splitTermAfter : Str → List Str
  | [] => [[]]
  | c :: rest =>
    if isTerminator c then splitTermAfter rest
    else splitTermGo rest [c]
end

def splitTerm (l : Str) : List Str := splitTermGo l []

/-- JavaScript `Array.prototype.join(sep)`. -/
def joinSep (sep : Str) : List Str → Str
  | [] => []
  | [x] => x
  | x :: xs => x ++ sep ++ joinSep sep xs

/-- `summarizeContent`: split into sentences, drop blank ones, keep the
first `min 3 n`, rejoin with `". "` and a trailing period. -/
def summarizeContent (content : Str) : Str :=
  let sentences := (splitTerm content).filter (fun s => 0 < (trimStr s).length)
  let summaryLength := min 3 sentences.length
  joinSep ['.', ' '] (sentences.take summaryLength) ++ ['.']

/-- `content.split('\n')` (literal-separator split, keeping empties). -/
def splitNlGo : Str → Str → List Str
  | [], acc => [acc.reverse]
  | c :: rest, acc =>
    if c = '\n' then acc.reverse :: splitNlGo rest []
    else splitNlGo rest (c :: acc)

def splitNl (l : Str) : List Str := splitNlGo l []

/-- `extractKeyPoints`: non-blank lines shorter than 100 characters that
contain one of `:`, `。`, `•`, `-`, rejoined with line breaks. -/
def extractKeyPoints (content : Str) : Str :=
  let lines := (splitNl content).filter (fun line => 0 < (trimStr line).length)
  let keyLines := lines.filter (fun line =>
    line.length < 100 &&
      (line.contains ':' || line.contains '。' || line.contains '•' || line.contains '-'))
  joinSep ['\n'] keyLines

/-- Fuelled scanner for `/\d+(\.\d+)?/g`: a maximal digit run, optionally
followed by `'.'` and a further nonempty digit run. -/
def numScanGo : Nat → Str → List Str
  | _, [] => []
  | 0, _ => []
  | fuel + 1, c :: rest =>
    if c.isDigit then
      let ds := (c :: rest).takeWhile Char.isDigit
      let after := (c :: rest).drop ds.length
      match after with
      | '.' :: a2 =>
        let fs := a2.takeWhile Char.isDigit
        if fs ≠ [] then (ds ++ '.' :: fs) :: numScanGo fuel (a2.drop fs.length)
        else ds :: numScanGo fuel after
      | _ => ds :: numScanGo fuel after
    else numScanGo fuel rest

/-- `extractNumbers`: all numeric tokens joined with `", "`. -/
def extractNumbers (content : Str) : Str :=
  joinSep [',', ' '] (numScanGo content.length content)

def isLocalChar (c : Char) : Bool :=
  c.isAlpha || c.isDigit || c = '.' || c = '_' || c = '%' || c = '+' || c = '-'

def isDomainChar (c : Char) : Bool :=
  c.isAlpha || c.isDigit || c = '.' || c = '-'

/-- One match attempt of
`/[a-zA-Z0-9._%+-]+@[a-zA-Z0-9.-]+\.[a-zA-Z]{2,}/` at the head of `l`:
greedy local part directly followed by `'@'`; the greedy domain run
backtracks to the last `'.'` (inside the maximal domain-character run)
that is followed by at least two letters. -/
def emailTry (l : Str) : Option (Str × Str) :=
  if l.head?.any isLocalChar then
    let loc := l.takeWhile isLocalChar
    match l.drop loc.length with
    | '@' :: afterAt =>
      let dom := afterAt.takeWhile isDomainChar
      ((List.range dom.length).reverse).findSome? fun k =>
        if 1 ≤ k ∧ dom.get? k = some '.' then
          let ls := (afterAt.drop (k + 1)).takeWhile Char.isAlpha
          if 2 ≤ ls.length then
            some (loc ++ '@' :: (dom.take k ++ '.' :: ls), afterAt.drop (k + 1 + ls.length))
          else none
        else none
    | _ => none
  else none

/-- Fuelled scanner for the email regex. -/
def emailScanGo : Nat → Str → List Str
  | _, [] => []
  | 0, _ => []
  | fuel + 1, c :: rest =>
    match emailTry (c :: rest) with
    | some (tok, after) => tok :: emailScanGo fuel after
    | none => emailScanGo fuel rest

/-- `extractEmails`: all email-shaped tokens joined with `", "`. -/
def extractEmails (content : Str) : Str :=
  joinSep [',', ' '] (emailScanGo content.length content)

/-- `applyPrompt`: dispatch on the lower-cased prompt name; unknown names
are identity. -/
def applyPrompt (content : Str) (prompt : Str) : Str :=
  let promptLower := lowerStr prompt
  if promptLower = "summarize".toList then summarizeContent content
  else if promptLower = "extract_key_points".toList then extractKeyPoints content
  else if promptLower = "clean_text".toList then trimStr (collapseWS content)
  else if promptLower = "extract_numbers".toList then extractNumbers content
  else if promptLower = "extract_emails".toList then extractEmails content
  else content

/-- `enhanceContentWithAI`: normalize once, then apply the prompts
sequentially, each consuming the previous output. -/
def enhanceContentWithAI (content : Str) (prompts : List Str) : Str :=
  let textContent := extractTextContent content
  prompts.foldl applyPrompt textContent

/-! ## Structured data extraction -/

/-- One match attempt of `/<h[1-6][^>]*>([^<]+)<\/h[1-6]>/i` at the head:
open tag `<h` + digit, `[^>]*` to the first `'>'`, nonempty non-`'<'`
capture, then a `</h[1-6]>` closing tag (any level). -/
def headingTry (l : Str) : Option (Str × Str) :=
  match l with
  | '<' :: h :: d :: rest =>
    if lowerChar h = 'h' ∧ '1' ≤ d ∧ d ≤ '6' then
      match afterFirstGt rest with
      | some afterGt =>
        let cap := afterGt.takeWhile (· ≠ '<')
        match afterGt.drop cap.length with
        | '<' :: '/' :: h2 :: d2 :: '>' :: after =>
          if cap ≠ [] ∧ lowerChar h2 = 'h' ∧ '1' ≤ d2 ∧ d2 ≤ '6' then
            some (cap, after)
          else none
        | _ => none
      | none => none
    else none
  | _ => none

/-- Fuelled `exec` loop for the heading regex, pushing `match[1].trim()`. -/
def headingsGo : Nat → Str → List Str
  | _, [] => []
  | 0, _ => []
  | fuel + 1, c :: rest =>
    match headingTry (c :: rest) with
    | some (cap, after) => trimStr cap :: headingsGo fuel after
    | none => headingsGo fuel rest

def extractHeadings (content : Str) : List Str :=
  headingsGo content.length content

/-- One match attempt of an element-inner regex
`/<name[^>]*>([\s\S]*?)<\/name>/i` at the head of `l` (used for `table`,
`form` and each `ul`/`ol` alternative). -/
def innerTry (name : Str) (l : Str) : Option (Str × Str) :=
  if ciPrefix ('<' :: name) l then
    match afterFirstGt (l.drop (name.length + 1)) with
    | some afterGt =>
      let close := '<' :: '/' :: (name ++ ['>'])
      match beforeFirstCI close afterGt, afterFirstCI close afterGt with
      | some inner, some after => some (inner, after)
      | _, _ => none
    | none => none
  else none

/-- Fuelled `exec` loop for an element-inner regex, pushing the trimmed
inner markup. -/
def innersGo (name : Str) : Nat → Str → List Str
  | _, [] => []
  | 0, _ => []
  | fuel + 1, c :: rest =>
    match innerTry name (c :: rest) with
    | some (inner, after) => trimStr inner :: innersGo name fuel after
    | none => innersGo name fuel rest

/-- `/<table[^>]*>([\s\S]*?)<\/table>/gi`, pushing `match[1].trim()`. -/
def extractTables (content : Str) : List Str :=
  innersGo ['t', 'a', 'b', 'l', 'e'] content.length content

/-- `/<form[^>]*>([\s\S]*?)<\/form>/gi`, pushing `match[1].trim()`. -/
def extractForms (content : Str) : List Str :=
  innersGo ['f', 'o', 'r', 'm'] content.length content

/-- Fuelled `exec` loop for `/<(ul|ol)[^>]*>([\s\S]*?)<\/\1>/gi`: the two
alternatives are disjoint at any position, and the backreference `\1`
requires the matching closing tag (case-insensitively). -/
def listsGo : Nat → Str → List Str
  | _, [] => []
  | 0, _ => []
  | fuel + 1, c :: rest =>
    match innerTry ['u', 'l'] (c :: rest) with
    | some (inner, after) => trimStr inner :: listsGo fuel after
    | none =>
      match innerTry ['o', 'l'] (c :: rest) with
      | some (inner, after) => trimStr inner :: listsGo fuel after
      | none => listsGo fuel rest

def extractLists (content : Str) : List Str :=
  listsGo content.length content

/-! ## JSON values and `JSON.parse` -/

/-- JSON values as produced by `JSON.parse`; string and number tokens are
kept in their (validated) source form, which is enough for the properties
studied here. -/
inductive JsonVal where
  | null
  | bool (b : Bool)
  | num (tok : Str)
  | str (tok : Str)
  | arr (xs : List JsonVal)
  | obj (fields : List (Str × JsonVal))
deriving BEq

/-- JSON whitespace (only space, tab, line feed, carriage return). -/
def isJsonWs (c : Char) : Bool :=
  c = ' ' || c = '\t' || c = '\n' || c = '\r'

def isHexDigit (c : Char) : Bool :=
  c.isDigit || ('a' ≤ c && c ≤ 'f') || ('A' ≤ c && c ≤ 'F')

/-- Body of a JSON string after the opening quote: validated escapes, no
raw control characters; returns the raw token and the input after the
closing quote. -/
def jsonStrBody : Str → Option (Str × Str)
  | [] => none
  | '"' :: rest => some ([], rest)
  | '\\' :: e :: rest =>
    if e = '"' ∨ e = '\\' ∨ e = '/' ∨ e = 'b' ∨ e = 'f' ∨ e = 'n' ∨ e = 'r' ∨ e = 't' then
      (jsonStrBody rest).map (fun p => ('\\' :: e :: p.1, p.2))
    else if e = 'u' then
      match rest with
      | h1 :: h2 :: h3 :: h4 :: rest2 =>
        if isHexDigit h1 && isHexDigit h2 && isHexDigit h3 && isHexDigit h4 then
          (jsonStrBody rest2).map (fun p => ('\\' :: 'u' :: h1 :: h2 :: h3 :: h4 :: p.1, p.2))
        else none
      | _ => none
    else none
  | c :: rest =>
    if c.toNat < 0x20 then none
    else (jsonStrBody rest).map (fun p => (c :: p.1, p.2))

/-- A JSON number token (`-?(0|[1-9]\d*)(\.\d+)?([eE][+-]?\d+)?`);
returns the token and the rest. -/
def jsonNumber (l : Str) : Option (Str × Str) :=
  let (sign, r1) :=
    match l with
    | '-' :: r => (['-'], r)
    | _ => (([] : Str), l)
  match r1 with
  | c :: r2 =>
    if c = '0' ∨ (c.isDigit ∧ c ≠ '0') then
      let intPart :=
        if c = '0' then [c]
        else c :: r2.takeWhile Char.isDigit
      let afterInt := if c = '0' then r2 else r2.drop (intPart.length - 1)
      let withFrac :=
        match afterInt with
        | '.' :: f =>
          let ds := f.takeWhile Char.isDigit
          if ds = [] then none
          else some (intPart ++ '.' :: ds, f.drop ds.length)
        | _ => some (intPart, afterInt)
      match withFrac with
      | none => none
      | some (tok, afterFrac) =>
        match afterFrac with
        | e :: f2 =>
          if e = 'e' ∨ e = 'E' then
            let (esign, f3) :=
              match f2 with
              | '+' :: r => (['+'], r)
              | '-' :: r => (['-'], r)
              | _ => (([] : Str), f2)
            let ds := f3.takeWhile Char.isDigit
            if ds = [] then none
            else some (sign ++ tok ++ e :: (esign ++ ds), f3.drop ds.length)
          else some (sign ++ tok, afterFrac)
        | [] => some (sign ++ tok, [])
  else none
  | [] => none

mutual
/-- Fuelled JSON value parser (grammar of `JSON.parse`); consumes leading
whitespace.  Fuel `l.length + 1` always suffices. -/
def jsonValue : Nat → Str → Option (JsonVal × Str)
  | 0, _ => none
  | fuel + 1, l =>
    match l.dropWhile isJsonWs with
    | 'n' :: rest =>
      if ['u', 'l', 'l'].isPrefixOf rest then some (.null, rest.drop 3) else none
    | 't' :: rest =>
      if ['r', 'u', 'e'].isPrefixOf rest then some (.bool true, rest.drop 3) else none
    | 'f' :: rest =>
      if ['a', 'l', 's', 'e'].isPrefixOf rest then some (.bool false, rest.drop 4) else none
    | '"' :: rest =>
      match jsonStrBody rest with
      | some (tok, after) => some (.str tok, after)
      | none => none
    | '[' :: rest =>
      (match rest.dropWhile isJsonWs with
      | ']' :: after => some (.arr [], after)
      | _ => (jsonElems fuel rest).map (fun p => (.arr p.1, p.2)))
    | '{' :: rest =>
      (match rest.dropWhile isJsonWs with
      | '}' :: after => some (.obj [], after)
      | _ => (jsonMembers fuel rest).map (fun p => (.obj p.1, p.2)))
    | c :: rest =>
      if c = '-' ∨ c.isDigit then jsonNumber (c :: rest) |>.map (fun p => (.num p.1, p.2))
      else none
    | [] => none

/-- One or more comma-separated array elements, ending at `']'`. -/
def jsonElems : Nat → Str → Option (List JsonVal × Str)
  | 0, _ => none
  | fuel + 1, l =>
    match jsonValue fuel l with
    | some (v, r) =>
      (match r.dropWhile isJsonWs with
      | ',' :: r2 => (jsonElems fuel r2).map (fun p => (v :: p.1, p.2))
      | ']' :: r2 => some ([v], r2)
      | _ => none)
    | none => none

/-- One or more comma-separated object members, ending at `'}'`. -/
def jsonMembers : Nat → Str → Option (List (Str × JsonVal) × Str)
  | 0, _ => none
  | fuel + 1, l =>
    match l.dropWhile isJsonWs with
    | '"' :: rest =>
      match jsonStrBody rest with
      | some (key, r) =>
        (match r.dropWhile isJsonWs with
        | ':' :: r2 =>
          match jsonValue fuel r2 with
          | some (v, r3) =>
            (match r3.dropWhile isJsonWs with
            | ',' :: r4 => (jsonMembers fuel r4).map (fun p => ((key, v) :: p.1, p.2))
            | '}' :: r4 => some ([(key, v)], r4)
            | _ => none)
          | none => none
        | _ => none)
      | none => none
    | _ => none
end

/-- `JSON.parse`: a single value with only trailing whitespace allowed. -/
def jsonParse (l : Str) : Option JsonVal :=
  match jsonValue (l.length + 1) l with
  | some (v, rest) => if rest.dropWhile isJsonWs = [] then some v else none
  | none => none

/-- One match attempt of the JSON-LD script regex
`/<script[^>]*type=["']application\/ld\+json["'][^>]*>([\s\S]*?)<\/script>/i`
at the head of `l`: since no literal of the open tag may contain `'>'`,
the open tag always ends at the first `'>'` after `<script`, and the
`type` literal must occur somewhere before it. -/
def jsonLdTry (l : Str) : Option (Str × Str) :=
  if ciPrefix ['<', 's', 'c', 'r', 'i', 'p', 't'] l then
    let rest := l.drop 7
    let g := (rest.takeWhile (· ≠ '>')).length
    match rest.drop g with
    | '>' :: afterGt =>
      if (List.range (g + 1)).any (fun p =>
          ciPrefix ['t', 'y', 'p', 'e', '='] (rest.drop p) ∧
          (rest.drop (p + 5)).head?.any isQuote ∧
          ciPrefix ['a', 'p', 'p', 'l', 'i', 'c', 'a', 't', 'i', 'o', 'n', '/',
                    'l', 'd', '+', 'j', 's', 'o', 'n'] (rest.drop (p + 6)) ∧
          (rest.drop (p + 25)).head?.any isQuote) then
        let close := ['<', '/', 's', 'c', 'r', 'i', 'p', 't', '>']
        match beforeFirstCI close afterGt, afterFirstCI close afterGt with
        | some inner, some after => some (inner, after)
        | _, _ => none
      else none
    | _ => none
  else none

/-- Fuelled `exec` loop collecting the raw inner bodies of JSON-LD
blocks, in document order. -/
def jsonLdBlocksGo : Nat → Str → List Str
  | _, [] => []
  | 0, _ => []
  | fuel + 1, c :: rest =>
    match jsonLdTry (c :: rest) with
    | some (inner, after) => inner :: jsonLdBlocksGo fuel after
    | none => jsonLdBlocksGo fuel rest

def jsonLdBlocks (content : Str) : List Str :=
  jsonLdBlocksGo content.length content

/-- `extractJsonLd`: the same `exec` loop, parsing each block body with
`JSON.parse(match[1].trim())` inside `try { … push } catch { skip }`. -/
def extractJsonLdGo : Nat → Str → List JsonVal
  | _, [] => []
  | 0, _ => []
  | fuel + 1, c :: rest =>
    match jsonLdTry (c :: rest) with
    | some (inner, after) =>
      match jsonParse (trimStr inner) with
      | some v => v :: extractJsonLdGo fuel after
      | none => extractJsonLdGo fuel after
    | none => extractJsonLdGo fuel rest

def extractJsonLd (content : Str) : List JsonVal :=
  extractJsonLdGo content.length content

/-- The `StructuredData` shape assembled by `extractStructuredData`. -/
structure StructuredData where
  headings : List Str
  lists : List Str
  tables : List Str
  forms : List Str
  jsonLd : List JsonVal
deriving BEq

/-- `extractStructuredData`: total, always returns all five shapes. -/
def extractStructuredData (content : Str) : StructuredData :=
  { headings := extractHeadings content
    lists := extractLists content
    tables := extractTables content
    forms := extractForms content
    jsonLd := extractJsonLd content }

/-! ## Configuration, results and the `scrape` orchestrator -/

inductive ExtractMode where
  | text
  | html
  | structured
deriving DecidableEq

/-- `ScrapingConfig` as received by `scrape`: optional fields are absent
(`none`) or explicitly supplied. -/
structure ScrapingConfig where
  url : Str
  selector : Option Str := none
  maxRetries : Option Int := none
  timeout : Option Int := none
  javascript : Option Bool := none
  extractMode : Option ExtractMode := none
  aiPrompts : Option (List Str) := none

/-- A configuration after `validateConfig`: every field populated. -/
structure ValidatedConfig where
  url : Str
  selector : Option Str
  maxRetries : Int
  timeout : Int
  javascript : Bool
  extractMode : ExtractMode
  aiPrompts : List Str

/-- `validateConfig`: `||`-defaulting applies the default to every falsy
value, so an explicit `0` for `maxRetries`/`timeout` is also replaced;
`javascript !== false` is `true` for absent values. -/
def validateConfig (config : ScrapingConfig) : ValidatedConfig :=
  { url := config.url
    selector := config.selector
    maxRetries :=
      match config.maxRetries with
      | none => 3
      | some n => if n = 0 then 3 else n
    timeout :=
      match config.timeout with
      | none => 10000
      | some n => if n = 0 then 10000 else n
    javascript :=
      match config.javascript with
      | some false => false
      | _ => true
    extractMode := config.extractMode.getD .text
    aiPrompts := config.aiPrompts.getD [] }

/-- A thrown JavaScript value as observed by the `catch` handler: either
an `Error` carrying a message, or a non-`Error` value. -/
inductive JSError where
  | mkError (message : Str)
  | nonError
deriving DecidableEq

/-- Outcome of the host `fetch` call for the single outbound request. -/
inductive FetchOutcome where
  | ok (body : Str)
  | httpError (status : Nat) (statusText : Str)
  | abortError
  | failure (e : JSError)
deriving DecidableEq

/-- The host environment of one `scrape` invocation: whether `new URL`
accepts the (validated) url, the fetch outcome, and the clock value
returned by `new Date().toISOString()`. -/
structure Env where
  urlValid : Bool
  fetchOut : FetchOutcome
  now : Str

/-- `fetchContent`: 2xx responses yield the body text; a non-ok response
throws `HTTP <status>: <statusText>`; an abort (deadline) throws
`Request timeout`; any other fetch failure is rethrown unchanged. -/
def fetchContent (out : FetchOutcome) : Except JSError Str :=
  match out with
  | .ok body => .ok body
  | .httpError status statusText =>
    .error (.mkError (('H' :: 'T' :: 'T' :: 'P' :: ' ' :: (toString status).toList) ++
      ':' :: ' ' :: statusText))
  | .abortError => .error (.mkError "Request timeout".toList)
  | .failure e => .error e

/-- A JavaScript object field that claims distinguish three ways: absent
from the object, present with value `null`, or present with a value. -/
inductive JsField (α : Type) where
  | absent
  | null
  | val (a : α)
deriving BEq

/-- The metadata envelope; on the failure path only `timestamp` is set. -/
structure Metadata where
  title : Option Str
  description : Option Str
  images : Option (List Str)
  links : Option (List Str)
  timestamp : Str
deriving BEq

/-- The `ScrapingResult` shape. -/
structure ScrapingResult where
  success : Bool
  url : Str
  content : Str
  metadata : Metadata
  structuredData : JsField StructuredData
  error : Option Str

/-- `extractMetadata` (the `url` parameter is accepted but unused by the
source): first title and description captures (trimmed), image sources
capped to 10, link targets capped to 20, and the current timestamp. -/
def extractMetadata (content : Str) (url : Str) (now : Str) : Metadata :=
  { title := (titleScan content).map trimStr
    description := (descScan content).map trimStr
    images := some ((imgSrcs content).take 10)
    links := some ((aHrefs content).take 20)
    timestamp := now }

/-- The message stored by the `catch` handler:
`error instanceof Error ? error.message : 'Unknown scraping error'`. -/
def errMessage : JSError → Str
  | .mkError m => m
  | .nonError => "Unknown scraping error".toList

/-- The failure result assembled by the `catch` branch of `scrape`. -/
def scrapeFailure (config : ScrapingConfig) (now : Str) (e : JSError) : ScrapingResult :=
  { success := false
    url := config.url
    content := []
    metadata :=
      { title := none, description := none, images := none, links := none, timestamp := now }
    structuredData := .absent
    error := some (errMessage e) }

/-- `scrape` (ScrapingAIEngine.scrape): validate the configuration,
validate the URL (throwing `Invalid URL format`), fetch, extract
metadata, run the prompt pipeline only when `aiPrompts` is nonempty, run
structured extraction only when `extractMode == 'structured'`, and
assemble the success result (whose object literal always contains the
`structuredData` key, `null` unless structured extraction ran); any
exception is converted by the `catch` branch into the uniform failure
result. -/
def scrape (config : ScrapingConfig) (env : Env) : ScrapingResult :=
  let validatedConfig := validateConfig config
  if env.urlValid = false then
    scrapeFailure config env.now (.mkError "Invalid URL format".toList)
  else
    match fetchContent env.fetchOut with
    | .error e => scrapeFailure config env.now e
    | .ok content =>
      let metadata := extractMetadata content validatedConfig.url env.now
      let enhancedContent :=
        if validatedConfig.aiPrompts.length > 0 then
          enhanceContentWithAI content validatedConfig.aiPrompts
        else content
      let structuredData : JsField StructuredData :=
        if validatedConfig.extractMode = .structured then
          .val (extractStructuredData enhancedContent)
        else .null
      { success := true
        url := validatedConfig.url
        content := enhancedContent
        metadata := metadata
        structuredData := structuredData
        error := none }

/-! ## Spec-side measures and concrete fixtures used by the theorems -/

/-- Number of non-blank sentences of a string, under the same splitter
and blank-filter as `summarizeContent`. -/
def sentenceCount (l : Str) : Nat :=
  ((splitTerm l).filter (fun s => 0 < (trimStr s).length)).length

def tsFixture : Str := "2024-01-01T00:00:00.000Z".toList

def cfgEmptyErr : ScrapingConfig := { url := "https://example.com/a".toList }

def envEmptyErr : Env :=
  { urlValid := true, fetchOut := .failure (.mkError []), now := tsFixture }

def cfgBadUrl : ScrapingConfig := { url := "invalid-url".toList }

def envBadUrl : Env :=
  { urlValid := false, fetchOut := .failure .nonError, now := tsFixture }

def cfgNoPrompts : ScrapingConfig :=
  { url := "https://example.com/b".toList, extractMode := some .text,
    aiPrompts := some [] }

def envNoPrompts : Env :=
  { urlValid := true, fetchOut := .ok "<b>Hi</b> there".toList, now := tsFixture }

def cfgTextMode : ScrapingConfig :=
  { url := "https://example.com/c".toList, extractMode := some .text }

def envTextMode : Env :=
  { urlValid := true, fetchOut := .ok "<p>x</p>".toList, now := tsFixture }

def cfgStructured : ScrapingConfig :=
  { url := "https://example.com/d".toList, extractMode := some .structured }

def envStructured : Env :=
  { urlValid := true, fetchOut := .ok "<h1>T</h1>".toList, now := tsFixture }

def cfgZeroDefaults : ScrapingConfig :=
  { url := "https://example.com/e".toList, maxRetries := some 0, timeout := some 0 }

/-- Markup with 11 `<img>` tags and 21 `<a>` tags. -/
def capsContent : Str :=
  ("<img src='i1'><img src='i2'><img src='i3'><img src='i4'><img src='i5'>" ++
   "<img src='i6'><img src='i7'><img src='i8'><img src='i9'><img src='i10'>" ++
   "<img src='i11'>" ++
   "<a href='l1'><a href='l2'><a href='l3'><a href='l4'><a href='l5'>" ++
   "<a href='l6'><a href='l7'><a href='l8'><a href='l9'><a href='l10'>" ++
   "<a href='l11'><a href='l12'><a href='l13'><a href='l14'><a href='l15'>" ++
   "<a href='l16'><a href='l17'><a href='l18'><a href='l19'><a href='l20'>" ++
   "<a href='l21'>").toList

def jsonLdFixtureBody : Str :=
  "<script type=\"application/ld+json\">not json</script>".toList

def cfgJsonLd : ScrapingConfig :=
  { url := "https://example.com/f".toList, extractMode := some .structured }

def envJsonLd : Env :=
  { urlValid := true, fetchOut := .ok jsonLdFixtureBody, now := tsFixture }

/-! Normal-form predicates used by the idempotence development (C5). -/

/-- Every `'<'` is immediately followed by `'>'` or has no `'>'` after
it; no pattern of the shape `<[^>]+>` (nor any element open tag, closing
tag or comment) can match such a string. -/
def noLtPair (l : Str) : Prop :=
  ∀ l1 l2, l = l1 ++ '<' :: l2 → '>' ∈ l2 → ∃ l2', l2 = '>' :: l2'

def allWsSpace (l : Str) : Prop := ∀ c ∈ l, isJsSpace c = true → c = ' '

def noWsPair (l : Str) : Prop :=
  List.Chain' (fun a b => ¬(isJsSpace a = true ∧ isJsSpace b = true)) l

/-! ## Claim C10: zero values are coerced to the defaults -/

/-- Claim C10: config validation coerces explicitly supplied zero values
to the defaults — `maxRetries = 0` validates to `3` and `timeout = 0`
validates to `10000`, because `||`-defaulting applies to every falsy
value, not only to absent fields. -/
theorem validateConfig_zero_coerced (config : ScrapingConfig) :
    (config.maxRetries = some 0 → (validateConfig config).maxRetries = 3) ∧
    (config.timeout = some 0 → (validateConfig config).timeout = 10000) := by
  constructor
  · intro h
    simp [validateConfig, h]
  · intro h
    simp [validateConfig, h]

/-- Witness for C10 at a concrete request carrying `maxRetries = 0` and
`timeout = 0`. -/
theorem validateConfig_zero_coerced_witness :
    (validateConfig cfgZeroDefaults).maxRetries = 3 ∧
    (validateConfig cfgZeroDefaults).timeout = 10000 :=
  ⟨(validateConfig_zero_coerced cfgZeroDefaults).1 rfl,
   (validateConfig_zero_coerced cfgZeroDefaults).2 rfl⟩

/-! ## Claim C4: success/error invariant and the timestamp -/

/-- Claim C4: every result returned by `scrape` satisfies
`success = true ↔ error absent`, and `metadata.timestamp` is set (to the
environment clock) on every result, including failures. -/
theorem scrape_success_iff_error_absent (config : ScrapingConfig) (env : Env) :
    ((scrape config env).success = true ↔ (scrape config env).error = none) ∧
    (scrape config env).metadata.timestamp = env.now := by
  obtain ⟨uv, fo, now⟩ := env
  unfold scrape
  cases uv <;> cases fo <;>
    simp [scrapeFailure, fetchContent, extractMetadata]

/-! ## Claim C1: the catch-all failure shape -/

/-- Counterexample to C1 as stated: when the fetch layer throws an
`Error` whose own message is empty, the failure result's `error` field is
the empty string, not a non-empty message. -/
theorem scrape_error_message_can_be_empty :
    (scrape cfgEmptyErr envEmptyErr).success = false ∧
    (scrape cfgEmptyErr envEmptyErr).error = some [] :=
  ⟨rfl, rfl⟩

/-- Claim C1 (amended): any stage error is caught at the `scrape`
boundary and converted into the uniform failure result — `success:
false`, empty `content`, metadata holding only the timestamp, and `error`
set to the thrown `Error`'s message (or `Unknown scraping error` for a
non-`Error`); the message is non-empty except when the thrown `Error`'s
own message is empty. -/
theorem scrape_catch_failure_shape (config : ScrapingConfig) (env : Env) (e : JSError)
    (h : env.urlValid = false ∧ e = .mkError "Invalid URL format".toList ∨
         env.urlValid = true ∧ fetchContent env.fetchOut = .error e) :
    scrape config env = scrapeFailure config env.now e ∧
    (scrape config env).success = false ∧
    (scrape config env).content = [] ∧
    (scrape config env).metadata =
      { title := none, description := none, images := none, links := none,
        timestamp := env.now } ∧
    (scrape config env).structuredData = .absent ∧
    (scrape config env).error = some (errMessage e) ∧
    (e = .mkError [] ∨ errMessage e ≠ []) := by
  have hmain : scrape config env = scrapeFailure config env.now e := by
    rcases h with ⟨hu, he⟩ | ⟨hu, hf⟩
    · subst he
      unfold scrape
      rw [hu]
      simp
    · unfold scrape
      rw [hu]
      simp [hf]
  have hlast : e = .mkError [] ∨ errMessage e ≠ [] := by
    cases e with
    | mkError m =>
      cases m with
      | nil => exact Or.inl rfl
      | cons c cs => exact Or.inr (by simp [errMessage])
    | nonError =>
      refine Or.inr ?_
      simp only [errMessage]
      decide
  rw [hmain]
  exact ⟨rfl, rfl, rfl, rfl, rfl, rfl, hlast⟩

/-- Witness for the amended C1 at a concrete invalid-URL request. -/
theorem scrape_catch_failure_shape_witness :
    scrape cfgBadUrl envBadUrl =
      scrapeFailure cfgBadUrl envBadUrl.now (.mkError "Invalid URL format".toList) :=
  (scrape_catch_failure_shape cfgBadUrl envBadUrl
    (.mkError "Invalid URL format".toList) (Or.inl ⟨rfl, rfl⟩)).1

/-! ## Claim C2: content with an empty prompt pipeline -/

/-- Counterexample to C2 as stated: a successful text-mode scrape with
`aiPrompts: []` returns the raw fetched markup as `content`, not the
normalized (tag-stripped) text. -/
theorem scrape_empty_prompts_content_not_normalized :
    (scrape cfgNoPrompts envNoPrompts).success = true ∧
    (validateConfig cfgNoPrompts).aiPrompts = [] ∧
    (validateConfig cfgNoPrompts).extractMode = .text ∧
    (scrape cfgNoPrompts envNoPrompts).content ≠
      extractTextContent "<b>Hi</b> there".toList := by
  refine ⟨rfl, rfl, rfl, ?_⟩
  decide

/-- Claim C2 (amended): for every successful scrape whose validated
`aiPrompts` is empty, `content` equals the raw fetched body unchanged —
normalization runs only inside AI enhancement, which is skipped when no
prompts are supplied. -/
theorem scrape_empty_prompts_content_raw (config : ScrapingConfig) (env : Env) (body : Str)
    (hurl : env.urlValid = true) (hfetch : env.fetchOut = .ok body)
    (hprompts : (validateConfig config).aiPrompts = []) :
    (scrape config env).success = true ∧ (scrape config env).content = body := by
  unfold scrape
  rw [hurl, hfetch]
  simp [fetchContent, hprompts]

/-- Witness for the amended C2 at a concrete markup body. -/
theorem scrape_empty_prompts_content_raw_witness :
    (scrape cfgNoPrompts envNoPrompts).success = true ∧
    (scrape cfgNoPrompts envNoPrompts).content = "<b>Hi</b> there".toList :=
  scrape_empty_prompts_content_raw cfgNoPrompts envNoPrompts
    "<b>Hi</b> there".toList rfl rfl rfl

/-! ## Claim C3: the entity-decoding step -/

/-- Claim C3 evaluated on the code as written: the decode chain's
patterns for `<`, `>`, `&`, `"`, `'` are the already-decoded characters
themselves (self-replacements), so none of the written HTML entities
`&lt; &gt; &amp; &quot; &#39;` is decoded — only `&nbsp;` is replaced
(by a space).  The claim's fixed six-entity set matches the comment and
the spec, not the shipped replacements. -/
theorem extractTextContent_entities_not_decoded :
    extractTextContent "a &lt; b &gt; c &amp; d &quot; e &#39; f".toList =
      "a &lt; b &gt; c &amp; d &quot; e &#39; f".toList ∧
    extractTextContent "a&nbsp;b".toList = "a b".toList := by
  constructor <;> decide

/-! ## Claim C6: presence of `structuredData` -/

/-- Counterexample to C6 as stated: a successful scrape with
`extractMode: 'text'` carries the `structuredData` key with value `null`
— the field is not absent from the result. -/
theorem scrape_structuredData_null_on_text_mode :
    (scrape cfgTextMode envTextMode).success = true ∧
    (scrape cfgTextMode envTextMode).structuredData = JsField.null ∧
    (scrape cfgTextMode envTextMode).structuredData ≠ JsField.absent := by
  refine ⟨rfl, rfl, ?_⟩
  intro h
  exact JsField.noConfusion h

/-- Claim C6 (amended): on success the `structuredData` field is always
present — `null` unless `extractMode == 'structured'`, in which case it
holds the extracted object (extraction itself is total); it is absent
only from failure results. -/
theorem scrape_structuredData_by_mode (config : ScrapingConfig) (env : Env)
    (h : (scrape config env).success = true) :
    ((validateConfig config).extractMode ≠ .structured →
      (scrape config env).structuredData = JsField.null) ∧
    ((validateConfig config).extractMode = .structured →
      (scrape config env).structuredData =
        JsField.val (extractStructuredData (scrape config env).content)) := by
  obtain ⟨uv, fo, now⟩ := env
  cases uv with
  | false =>
    exact absurd h (by simp [scrape, scrapeFailure])
  | true =>
    cases fo with
    | ok body =>
      constructor
      · intro hm
        simp [scrape, fetchContent, if_neg hm]
      · intro hm
        simp [scrape, fetchContent, if_pos hm]
    | httpError s t => exact absurd h (by simp [scrape, fetchContent, scrapeFailure])
    | abortError => exact absurd h (by simp [scrape, fetchContent, scrapeFailure])
    | failure e => exact absurd h (by simp [scrape, fetchContent, scrapeFailure])

/-- Witness for the amended C6 at concrete structured-mode and text-mode
requests. -/
theorem scrape_structuredData_by_mode_witness :
    (scrape cfgStructured envStructured).structuredData =
      JsField.val (extractStructuredData (scrape cfgStructured envStructured).content) :=
  (scrape_structuredData_by_mode cfgStructured envStructured rfl).2 rfl

/-! ## Claim C7: image and link caps -/

/-- Claim C7: metadata collects `<img>` `src` values capped to the first
10 in document order and `<a>` `href` values capped to the first 20; in
particular more than 10 images yield exactly 10 entries, and more than 20
links yield exactly 20. -/
theorem extractMetadata_caps (content url now : Str) :
    (extractMetadata content url now).images = some ((imgSrcs content).take 10) ∧
    (extractMetadata content url now).links = some ((aHrefs content).take 20) ∧
    (10 < (imgSrcs content).length →
      ((extractMetadata content url now).images.getD []).length = 10) ∧
    (20 < (aHrefs content).length →
      ((extractMetadata content url now).links.getD []).length = 20) := by
  refine ⟨rfl, rfl, ?_, ?_⟩
  · intro h
    simp [extractMetadata]
    omega
  · intro h
    simp [extractMetadata]
    omega

/-- Witness for C7 on markup with 11 images and 21 links. -/
theorem extractMetadata_caps_witness :
    ((extractMetadata capsContent [] tsFixture).images.getD []).length = 10 ∧
    ((extractMetadata capsContent [] tsFixture).links.getD []).length = 20 :=
  ⟨(extractMetadata_caps capsContent [] tsFixture).2.2.1 (by decide),
   (extractMetadata_caps capsContent [] tsFixture).2.2.2 (by decide)⟩

/-! ## Claim C8: bounds on the summarize transform -/

theorem splitTermGo_members : ∀ (l : Str) (acc : Str),
    (∀ c ∈ acc, isTerminator c = false) →
    (∀ s ∈ splitTermGo l acc, ∀ c ∈ s, isTerminator c = false) ∧
    (∀ s ∈ splitTermAfter l, ∀ c ∈ s, isTerminator c = false) := by
  intro l
  induction l with
  | nil =>
    intro acc hacc
    constructor
    · intro s hs c hc
      simp only [splitTermGo, List.mem_singleton] at hs
      subst hs
      exact hacc c (List.mem_reverse.mp hc)
    · intro s hs c hc
      simp only [splitTermAfter, List.mem_singleton] at hs
      subst hs
      simp at hc
  | cons a rest ih =>
    intro acc hacc
    constructor
    · intro s hs c hc
      simp only [splitTermGo] at hs
      by_cases ha : isTerminator a = true
      · rw [if_pos ha] at hs
        rcases List.mem_cons.mp hs with h | h
        · subst h
          exact hacc c (List.mem_reverse.mp hc)
        · exact (ih acc hacc).2 s h c hc
      · rw [if_neg ha] at hs
        refine (ih (a :: acc) ?_).1 s hs c hc
        intro x hx
        rcases List.mem_cons.mp hx with h | h
        · subst h
          simpa using ha
        · exact hacc x h
    · intro s hs c hc
      simp only [splitTermAfter] at hs
      by_cases ha : isTerminator a = true
      · rw [if_pos ha] at hs
        exact (ih acc hacc).2 s hs c hc
      · rw [if_neg ha] at hs
        refine (ih [a] ?_).1 s hs c hc
        intro x hx
        rcases List.mem_cons.mp hx with h | h
        · subst h
          simpa using ha
        · simp at h

theorem splitTermGo_append (s : Str) :
    ∀ (r acc : Str), (∀ c ∈ s, isTerminator c = false) →
    splitTermGo (s ++ r) acc = splitTermGo r (s.reverse ++ acc) := by
  induction s with
  | nil => intro r acc _; rfl
  | cons a s' ih =>
    intro r acc h
    have ha : isTerminator a = false := h a (List.mem_cons_self a s')
    show splitTermGo (a :: (s' ++ r)) acc = _
    simp only [splitTermGo, ha, Bool.false_eq_true, if_false]
    rw [ih r (a :: acc) (fun c hc => h c (List.mem_cons_of_mem _ hc))]
    simp

theorem splitTermGo_dot (rest acc : Str) :
    splitTermGo ('.' :: rest) acc = acc.reverse :: splitTermAfter rest := by
  simp [splitTermGo, show isTerminator '.' = true from rfl]

theorem splitTermAfter_space (rest : Str) :
    splitTermAfter (' ' :: rest) = splitTermGo rest [' '] := by
  simp [splitTermAfter, show isTerminator ' ' = false from rfl]

theorem splitTermAfter_nil : splitTermAfter [] = [[]] := rfl

theorem trimStr_cons_space (s : Str) : trimStr (' ' :: s) = trimStr s := by
  simp [trimStr, trimLeft, List.dropWhile_cons, isJsSpace]

theorem sentenceCount_joinSep (L : List Str)
    (hmem : ∀ s ∈ L, (∀ c ∈ s, isTerminator c = false) ∧ 0 < (trimStr s).length)
    (hlen : L.length ≤ 3) :
    sentenceCount (joinSep ['.', ' '] L ++ ['.']) = L.length := by
  match L, hlen with
  | [], _ => decide
  | [s1], _ =>
    obtain ⟨hf1, hp1⟩ := hmem s1 (by simp)
    show sentenceCount (s1 ++ ['.']) = 1
    simp only [sentenceCount, splitTerm]
    rw [splitTermGo_append s1 ['.'] [] hf1, List.append_nil, splitTermGo_dot,
      splitTermAfter_nil, List.reverse_reverse]
    simp [hp1, show trimStr ([] : Str) = [] from rfl]
  | [s1, s2], _ =>
    obtain ⟨hf1, hp1⟩ := hmem s1 (by simp)
    obtain ⟨hf2, hp2⟩ := hmem s2 (by simp)
    show sentenceCount (((s1 ++ ['.', ' ']) ++ s2) ++ ['.']) = 2
    rw [List.append_assoc, List.append_assoc]
    simp only [sentenceCount, splitTerm]
    rw [splitTermGo_append s1 _ [] hf1, List.append_nil]
    show (List.filter _ (splitTermGo ('.' :: ' ' :: (s2 ++ ['.'])) s1.reverse)).length = 2
    rw [splitTermGo_dot, splitTermAfter_space, List.reverse_reverse,
      splitTermGo_append s2 _ [' '] hf2, splitTermGo_dot, splitTermAfter_nil]
    have hx2 : (s2.reverse ++ [' ']).reverse = ' ' :: s2 := by simp
    rw [hx2]
    have hp2' : 0 < (trimStr (' ' :: s2)).length := by
      rw [trimStr_cons_space]; exact hp2
    simp [hp1, hp2', show trimStr ([] : Str) = [] from rfl]
  | [s1, s2, s3], _ =>
    obtain ⟨hf1, hp1⟩ := hmem s1 (by simp)
    obtain ⟨hf2, hp2⟩ := hmem s2 (by simp)
    obtain ⟨hf3, hp3⟩ := hmem s3 (by simp)
    show sentenceCount (((s1 ++ ['.', ' ']) ++ ((s2 ++ ['.', ' ']) ++ s3)) ++ ['.']) = 3
    rw [List.append_assoc, List.append_assoc, List.append_assoc]
    simp only [sentenceCount, splitTerm]
    rw [splitTermGo_append s1 _ [] hf1, List.append_nil]
    show (List.filter _
      (splitTermGo ('.' :: ' ' :: ((s2 ++ ['.', ' ']) ++ (s3 ++ ['.']))) s1.reverse)).length = 3
    rw [splitTermGo_dot, splitTermAfter_space, List.reverse_reverse, List.append_assoc,
      splitTermGo_append s2 _ [' '] hf2]
    show (List.filter _
      (s1 :: splitTermGo ('.' :: ' ' :: (s3 ++ ['.'])) (s2.reverse ++ [' ']))).length = 3
    rw [splitTermGo_dot, splitTermAfter_space,
      splitTermGo_append s3 _ [' '] hf3, splitTermGo_dot, splitTermAfter_nil]
    have hx2 : (s2.reverse ++ [' ']).reverse = ' ' :: s2 := by simp
    have hx3 : (s3.reverse ++ [' ']).reverse = ' ' :: s3 := by simp
    rw [hx2, hx3]
    have hp2' : 0 < (trimStr (' ' :: s2)).length := by
      rw [trimStr_cons_space]; exact hp2
    have hp3' : 0 < (trimStr (' ' :: s3)).length := by
      rw [trimStr_cons_space]; exact hp3
    simp [hp1, hp2', hp3', show trimStr ([] : Str) = [] from rfl]

/-- Claim C8: `summarize` splits on the sentence terminators
`. ! ? 。 ！ ？`, keeps at most the first 3 non-empty sentences and
rejoins them with `". "` plus a trailing period: for every input the
output contains at most 3 non-blank sentences (under the same splitter)
and ends with `'.'`. -/
theorem summarizeContent_bounds (content : Str) :
    sentenceCount (summarizeContent content) ≤ 3 ∧
    (summarizeContent content).getLast? = some '.' := by
  unfold summarizeContent
  set sentences := (splitTerm content).filter (fun s => 0 < (trimStr s).length) with hsen
  have hmem : ∀ s ∈ sentences, (∀ c ∈ s, isTerminator c = false) ∧ 0 < (trimStr s).length := by
    intro s hs
    rw [hsen] at hs
    obtain ⟨hs1, hs2⟩ := List.mem_filter.mp hs
    refine ⟨?_, by simpa using hs2⟩
    exact (splitTermGo_members content [] (by simp)).1 s hs1
  have hlen : (sentences.take (min 3 sentences.length)).length ≤ 3 := by
    simp only [List.length_take]
    omega
  have hmemL : ∀ s ∈ sentences.take (min 3 sentences.length),
      (∀ c ∈ s, isTerminator c = false) ∧ 0 < (trimStr s).length :=
    fun s hs => hmem s (List.take_subset _ _ hs)
  constructor
  · rw [sentenceCount_joinSep _ hmemL hlen]
    exact hlen
  · exact List.getLast?_concat _

/-! ## Claim C9: JSON-LD blocks that fail to parse are skipped -/

/-- Claim C9: the JSON-LD extractor parses each
`<script type="application/ld+json">` block and silently skips any block
whose body fails to parse — it equals the parse-successes of the raw
block bodies, in order — and a single block with body `not json` yields
an empty `jsonLd` with the surrounding structured scrape still
succeeding. -/
theorem extractJsonLd_skips_unparseable :
    (∀ fuel l, extractJsonLdGo fuel l =
      (jsonLdBlocksGo fuel l).filterMap (fun b => jsonParse (trimStr b))) ∧
    jsonLdBlocks jsonLdFixtureBody = ["not json".toList] ∧
    extractJsonLd jsonLdFixtureBody = [] ∧
    (scrape cfgJsonLd envJsonLd).success = true ∧
    (scrape cfgJsonLd envJsonLd).structuredData =
      JsField.val { headings := [], lists := [], tables := [], forms := [],
                    jsonLd := [] } := by
  refine ⟨?_, by decide, ?_, rfl, ?_⟩
  · intro fuel
    induction fuel with
    | zero =>
      intro l
      cases l <;> rfl
    | succ n ih =>
      intro l
      cases l with
      | nil => rfl
      | cons c rest =>
        show (match jsonLdTry (c :: rest) with
          | some (inner, after) =>
            match jsonParse (trimStr inner) with
            | some v => v :: extractJsonLdGo n after
            | none => extractJsonLdGo n after
          | none => extractJsonLdGo n rest) = _
        cases h : jsonLdTry (c :: rest) with
        | none =>
          simp only [jsonLdBlocksGo, h, ih]
        | some p =>
          obtain ⟨inner, after⟩ := p
          simp only [jsonLdBlocksGo, h, List.filterMap_cons, ih]
          cases jsonParse (trimStr inner) <;> rfl
  · rfl
  · rfl

/-! ## Claim C5: idempotence of the content normalizer

Structure of the proof: we characterise the output of
`extractTextContent` by a normal form (no tag-like pattern, no `&nbsp;`
occurrence, whitespace collapsed and trimmed) and prove in one direction
that the pipeline always produces It, and in the other that every stage
is the identity on it. -/

theorem afterFirstGt_eq : ∀ {l r : Str}, afterFirstGt l = some r →
    ∃ pre, l = pre ++ '>' :: r ∧ '>' ∉ pre := by
  intro l
  induction l with
  | nil => intro r h; simp [afterFirstGt] at h
  | cons c rest ih =>
    intro r h
    by_cases hc : c = '>'
    · subst hc
      have h' : rest = r := by simpa [afterFirstGt] using h
      exact ⟨[], by simp [h'], by simp⟩
    · simp only [afterFirstGt, if_neg hc] at h
      obtain ⟨pre, hpre, hmem⟩ := ih h
      refine ⟨c :: pre, by simp [hpre], ?_⟩
      simp only [List.mem_cons, not_or]
      exact ⟨fun h' => hc h'.symm, hmem⟩

theorem afterFirstGt_length {l r : Str} (h : afterFirstGt l = some r) :
    r.length < l.length := by
  obtain ⟨pre, hpre, -⟩ := afterFirstGt_eq h
  subst hpre
  simp only [List.length_append, List.length_cons]
  omega

theorem afterFirstGt_none {l : Str} (h : '>' ∉ l) : afterFirstGt l = none := by
  induction l with
  | nil => rfl
  | cons c rest ih =>
    simp only [List.mem_cons, not_or] at h
    have hc : ¬(c = '>') := fun hc => h.1 hc.symm
    simp only [afterFirstGt, if_neg hc]
    exact ih h.2

theorem ciPrefix_length : ∀ {pat l : Str}, ciPrefix pat l = true →
    pat.length ≤ l.length := by
  intro pat
  induction pat with
  | nil => intro l _; simp
  | cons p ps ih =>
    intro l h
    cases l with
    | nil => simp [ciPrefix] at h
    | cons c cs =>
      simp only [ciPrefix, Bool.and_eq_true] at h
      simpa using Nat.succ_le_succ (ih h.2)

theorem ciPrefix_exists : ∀ {pat l : Str}, ciPrefix pat l = true →
    ∀ p ∈ pat, ∃ c ∈ l, lowerChar c = p := by
  intro pat
  induction pat with
  | nil => intro l _ p hp; simp at hp
  | cons q ps ih =>
    intro l h p hp
    cases l with
    | nil => simp [ciPrefix] at h
    | cons c cs =>
      simp only [ciPrefix, Bool.and_eq_true, decide_eq_true_eq] at h
      rcases List.mem_cons.mp hp with h' | h'
      · exact ⟨c, List.mem_cons_self c cs, by rw [h.1, h']⟩
      · obtain ⟨d, hd, hde⟩ := ih h.2 p h'
        exact ⟨d, List.mem_cons_of_mem _ hd, hde⟩

theorem afterFirstCI_eq (pat : Str) : ∀ {l r : Str}, afterFirstCI pat l = some r →
    ∃ pre suf, l = pre ++ suf ∧ ciPrefix pat suf = true ∧ r = suf.drop pat.length := by
  intro l
  induction l with
  | nil => intro r h; simp [afterFirstCI] at h
  | cons c rest ih =>
    intro r h
    by_cases hp : ciPrefix pat (c :: rest) = true
    · simp only [afterFirstCI, if_pos hp, Option.some.injEq] at h
      exact ⟨[], c :: rest, by simp, hp, h.symm⟩
    · simp only [afterFirstCI, if_neg hp] at h
      obtain ⟨pre, suf, hl, hs, hr⟩ := ih h
      exact ⟨c :: pre, suf, by simp [hl], hs, hr⟩

theorem afterFirstCI_length (pat : Str) (hpat : pat ≠ []) {l r : Str}
    (h : afterFirstCI pat l = some r) : r.length < l.length := by
  obtain ⟨pre, suf, hl, hs, hr⟩ := afterFirstCI_eq pat h
  subst hl hr
  have h1 : pat.length ≤ suf.length := ciPrefix_length hs
  have h2 : 0 < pat.length := List.length_pos.mpr hpat
  simp only [List.length_append, List.length_drop]
  omega

/-! Fuel irrelevance and unfolding equations of the fuelled strippers. -/

theorem replaceAllGo_fuel (pat rep : Str) : ∀ (f1 f2 : Nat) (l : Str),
    l.length ≤ f1 → l.length ≤ f2 →
    replaceAllGo pat rep f1 l = replaceAllGo pat rep f2 l := by
  intro f1
  induction f1 with
  | zero =>
    intro f2 l h1 _
    have : l = [] := List.eq_nil_of_length_eq_zero (Nat.le_zero.mp h1)
    subst this
    cases f2 <;> rfl
  | succ n ih =>
    intro f2 l h1 h2
    cases l with
    | nil => cases f2 <;> rfl
    | cons c rest =>
      cases f2 with
      | zero => simp at h2
      | succ m =>
        simp only [replaceAllGo]
        by_cases hp : pat ≠ [] ∧ pat.isPrefixOf (c :: rest)
        · rw [if_pos hp, if_pos hp]
          have hlen : ((c :: rest).drop pat.length).length ≤ rest.length := by
            have : 0 < pat.length := List.length_pos.mpr hp.1
            simp only [List.length_drop, List.length_cons]
            omega
          simp only [List.length_cons] at h1 h2
          rw [ih m _ (by omega) (by omega)]
        · rw [if_neg hp, if_neg hp]
          simp only [List.length_cons] at h1 h2
          rw [ih m rest (by omega) (by omega)]

theorem replaceAll_cons (pat rep : Str) (c : Char) (rest : Str) :
    replaceAll pat rep (c :: rest) =
      if pat ≠ [] ∧ pat.isPrefixOf (c :: rest) then
        rep ++ replaceAll pat rep ((c :: rest).drop pat.length)
      else c :: replaceAll pat rep rest := by
  show replaceAllGo pat rep (rest.length + 1) (c :: rest) = _
  simp only [replaceAllGo]
  by_cases hp : pat ≠ [] ∧ pat.isPrefixOf (c :: rest)
  · rw [if_pos hp, if_pos hp]
    have hlen : ((c :: rest).drop pat.length).length ≤ rest.length := by
      have : 0 < pat.length := List.length_pos.mpr hp.1
      simp only [List.length_drop, List.length_cons]
      omega
    rw [replaceAllGo_fuel pat rep rest.length ((c :: rest).drop pat.length).length
      ((c :: rest).drop pat.length) hlen (le_refl _)]
    rfl
  · rw [if_neg hp, if_neg hp]
    rfl

theorem stripElemGo_fuel (name : Str) : ∀ (f1 f2 : Nat) (l : Str),
    l.length ≤ f1 → l.length ≤ f2 →
    stripElemGo name f1 l = stripElemGo name f2 l := by
  intro f1
  induction f1 with
  | zero =>
    intro f2 l h1 _
    have : l = [] := List.eq_nil_of_length_eq_zero (Nat.le_zero.mp h1)
    subst this
    cases f2 <;> rfl
  | succ n ih =>
    intro f2 l h1 h2
    cases l with
    | nil => cases f2 <;> rfl
    | cons c rest =>
      cases f2 with
      | zero => simp at h2
      | succ m =>
        simp only [stripElemGo]
        simp only [List.length_cons] at h1 h2
        by_cases hp : c = '<' ∧ ciPrefix name rest = true
        · rw [if_pos hp, if_pos hp]
          cases hgt : afterFirstGt (rest.drop name.length) with
          | none => dsimp only; rw [ih m rest (by omega) (by omega)]
          | some afterGt =>
            have hgl : afterGt.length < rest.length + 1 := by
              have := afterFirstGt_length hgt
              simp only [List.length_drop] at this
              omega
            dsimp only
            cases hci : afterFirstCI ('<' :: '/' :: (name ++ ['>'])) afterGt with
            | none => dsimp only; rw [ih m rest (by omega) (by omega)]
            | some afterClose =>
              have hcl : afterClose.length < afterGt.length :=
                afterFirstCI_length _ (by simp) hci
              dsimp only
              rw [ih m afterClose (by omega) (by omega)]
        · rw [if_neg hp, if_neg hp, ih m rest (by omega) (by omega)]

theorem stripElem_cons (name : Str) (c : Char) (rest : Str) :
    stripElem name (c :: rest) =
      (if c = '<' ∧ ciPrefix name rest = true then
        match afterFirstGt (rest.drop name.length) with
        | some afterGt =>
          match afterFirstCI ('<' :: '/' :: (name ++ ['>'])) afterGt with
          | some afterClose => stripElem name afterClose
          | none => c :: stripElem name rest
        | none => c :: stripElem name rest
      else c :: stripElem name rest) := by
  show stripElemGo name (rest.length + 1) (c :: rest) = _
  simp only [stripElemGo]
  by_cases hp : c = '<' ∧ ciPrefix name rest = true
  · rw [if_pos hp, if_pos hp]
    cases hgt : afterFirstGt (rest.drop name.length) with
    | none => rfl
    | some afterGt =>
      have hgl : afterGt.length < rest.length + 1 := by
        have := afterFirstGt_length hgt
        simp only [List.length_drop] at this
        omega
      dsimp only
      cases hci : afterFirstCI ('<' :: '/' :: (name ++ ['>'])) afterGt with
      | none => rfl
      | some afterClose =>
        have hcl : afterClose.length < afterGt.length :=
          afterFirstCI_length _ (by simp) hci
        dsimp only
        exact stripElemGo_fuel name rest.length afterClose.length afterClose
          (by omega) (le_refl _)
  · rw [if_neg hp, if_neg hp]
    rfl

theorem stripCommentsGo_fuel : ∀ (f1 f2 : Nat) (l : Str),
    l.length ≤ f1 → l.length ≤ f2 →
    stripCommentsGo f1 l = stripCommentsGo f2 l := by
  intro f1
  induction f1 with
  | zero =>
    intro f2 l h1 _
    have : l = [] := List.eq_nil_of_length_eq_zero (Nat.le_zero.mp h1)
    subst this
    cases f2 <;> rfl
  | succ n ih =>
    intro f2 l h1 h2
    cases l with
    | nil => cases f2 <;> rfl
    | cons c rest =>
      cases f2 with
      | zero => simp at h2
      | succ m =>
        simp only [stripCommentsGo]
        simp only [List.length_cons] at h1 h2
        by_cases hp : ['<', '!', '-', '-'].isPrefixOf (c :: rest) = true
        · rw [if_pos hp, if_pos hp]
          cases hci : afterFirstCI ['-', '-', '>'] ((c :: rest).drop 4) with
          | none => dsimp only; rw [ih m rest (by omega) (by omega)]
          | some after =>
            have hal : after.length < (rest.length + 1) - 4 := by
              have := afterFirstCI_length ['-', '-', '>'] (by simp) hci
              simpa using this
            dsimp only
            rw [ih m after (by omega) (by omega)]
        · rw [if_neg hp, if_neg hp, ih m rest (by omega) (by omega)]

theorem stripComments_cons (c : Char) (rest : Str) :
    stripComments (c :: rest) =
      (if ['<', '!', '-', '-'].isPrefixOf (c :: rest) = true then
        match afterFirstCI ['-', '-', '>'] ((c :: rest).drop 4) with
        | some after => stripComments after
        | none => c :: stripComments rest
      else c :: stripComments rest) := by
  show stripCommentsGo (rest.length + 1) (c :: rest) = _
  simp only [stripCommentsGo]
  by_cases hp : ['<', '!', '-', '-'].isPrefixOf (c :: rest) = true
  · rw [if_pos hp, if_pos hp]
    cases hci : afterFirstCI ['-', '-', '>'] ((c :: rest).drop 4) with
    | none => rfl
    | some after =>
      have hal : after.length < (rest.length + 1) - 4 := by
        have := afterFirstCI_length ['-', '-', '>'] (by simp) hci
        simpa using this
      dsimp only
      exact stripCommentsGo_fuel rest.length after.length after (by omega) (le_refl _)
  · rw [if_neg hp, if_neg hp]
    rfl

theorem stripTagsGo_fuel : ∀ (f1 f2 : Nat) (l : Str),
    l.length ≤ f1 → l.length ≤ f2 →
    stripTagsGo f1 l = stripTagsGo f2 l := by
  intro f1
  induction f1 with
  | zero =>
    intro f2 l h1 _
    have : l = [] := List.eq_nil_of_length_eq_zero (Nat.le_zero.mp h1)
    subst this
    cases f2 <;> rfl
  | succ n ih =>
    intro f2 l h1 h2
    cases l with
    | nil => cases f2 <;> rfl
    | cons c rest =>
      cases f2 with
      | zero => simp at h2
      | succ m =>
        simp only [stripTagsGo]
        simp only [List.length_cons] at h1 h2
        by_cases hc : c = '<'
        · rw [if_pos hc, if_pos hc]
          cases rest with
          | nil => rfl
          | cons r rs =>
            dsimp only
            by_cases hr : r = '>'
            · rw [if_pos hr, if_pos hr, ih m (r :: rs) (by simpa using h1) (by simpa using h2)]
            · rw [if_neg hr, if_neg hr]
              cases hgt : afterFirstGt (r :: rs) with
              | none => dsimp only; rw [ih m (r :: rs) (by simpa using h1) (by simpa using h2)]
              | some after =>
                have := afterFirstGt_length hgt
                simp only [List.length_cons] at this h1 h2
                dsimp only
                rw [ih m after (by omega) (by omega)]
        · rw [if_neg hc, if_neg hc, ih m rest (by omega) (by omega)]

theorem stripTags_cons (c : Char) (rest : Str) :
    stripTags (c :: rest) =
      (if c = '<' then
        match rest with
        | [] => [c]
        | r :: _ =>
          if r = '>' then c :: stripTags rest
          else
            match afterFirstGt rest with
            | some after => ' ' :: stripTags after
            | none => c :: stripTags rest
      else c :: stripTags rest) := by
  show stripTagsGo (rest.length + 1) (c :: rest) = _
  simp only [stripTagsGo]
  by_cases hc : c = '<'
  · rw [if_pos hc, if_pos hc]
    cases rest with
    | nil => rfl
    | cons r rs =>
      dsimp only
      by_cases hr : r = '>'
      · rw [if_pos hr, if_pos hr]
        rfl
      · rw [if_neg hr, if_neg hr]
        cases hgt : afterFirstGt (r :: rs) with
        | none => rfl
        | some after =>
          have := afterFirstGt_length hgt
          simp only [List.length_cons] at this
          dsimp only
          rw [stripTagsGo_fuel (r :: rs).length after.length after
            (by simp only [List.length_cons]; omega) (le_refl _)]
          rfl
  · rw [if_neg hc, if_neg hc]
    rfl

/-! Normal-form predicates for the pipeline output. -/

theorem noLtPair_nil : noLtPair [] := by
  intro l1 l2 h
  simp at h

theorem noLtPair_cons_iff (c : Char) (l : Str) :
    noLtPair (c :: l) ↔
      ((c = '<' → '>' ∈ l → ∃ l', l = '>' :: l') ∧ noLtPair l) := by
  constructor
  · intro h
    refine ⟨fun hc hm => h [] l (by simp [hc]) hm, ?_⟩
    intro l1 l2 hl hm
    exact h (c :: l1) l2 (by simp [hl]) hm
  · rintro ⟨h1, h2⟩ l1 l2 hl hm
    cases l1 with
    | nil =>
      simp only [List.nil_append, List.cons.injEq] at hl
      exact h1 hl.1 (hl.2 ▸ hm) |>.imp fun l' h' => hl.2 ▸ h'
    | cons d l1' =>
      simp only [List.cons_append, List.cons.injEq] at hl
      exact h2 l1' l2 hl.2 hm

theorem noLtPair_tail {c : Char} {l : Str} (h : noLtPair (c :: l)) : noLtPair l :=
  ((noLtPair_cons_iff c l).mp h).2

theorem noLtPair_singleton (c : Char) : noLtPair [c] := by
  rw [noLtPair_cons_iff]
  exact ⟨fun _ hm => absurd hm (by simp), noLtPair_nil⟩

theorem noLtPair_of_not_mem {l : Str} (h : '>' ∉ l) : noLtPair l := by
  intro l1 l2 hl hm
  exact absurd (hl ▸ (List.mem_append.mpr (Or.inr (List.mem_cons_of_mem _ hm)))) h

theorem noLtPair_append_left {l1 l2 : Str} (h : noLtPair (l1 ++ l2)) : noLtPair l1 := by
  intro pre suf hsplit hm
  have hfull : l1 ++ l2 = pre ++ '<' :: (suf ++ l2) := by
    rw [hsplit]; simp
  obtain ⟨l', hl'⟩ := h pre (suf ++ l2) hfull (List.mem_append.mpr (Or.inl hm))
  cases suf with
  | nil => simp at hm
  | cons s ss =>
    simp only [List.cons_append, List.cons.injEq] at hl'
    exact ⟨ss, by rw [hl'.1]⟩

theorem noLtPair_dropWhile (p : Char → Bool) :
    ∀ {l : Str}, noLtPair l → noLtPair (l.dropWhile p) := by
  intro l
  induction l with
  | nil => intro h; exact h
  | cons c rest ih =>
    intro h
    rw [List.dropWhile_cons]
    by_cases hp : p c = true
    · rw [if_pos hp]
      exact ih (noLtPair_tail h)
    · rw [if_neg hp]
      exact h

theorem trimRight_append (l : Str) : ∃ t, l = trimRight l ++ t := by
  obtain ⟨t, ht⟩ := (List.dropWhile_suffix (l := l.reverse) isJsSpace)
  refine ⟨t.reverse, ?_⟩
  have := congrArg List.reverse ht
  simpa [trimRight] using this.symm

theorem noLtPair_trimStr {l : Str} (h : noLtPair l) : noLtPair (trimStr l) := by
  have h1 : noLtPair (trimLeft l) := noLtPair_dropWhile _ h
  obtain ⟨t, ht⟩ := trimRight_append (trimLeft l)
  rw [ht] at h1
  exact noLtPair_append_left h1

theorem lowerChar_eq_gt {c : Char} (h : lowerChar c = '>') : c = '>' := by
  unfold lowerChar at h
  split at h <;> first
    | exact h
    | exact absurd h (by decide)

theorem not_mem_of_afterFirstGt_none : ∀ {l : Str}, afterFirstGt l = none → '>' ∉ l := by
  intro l
  induction l with
  | nil => intro _ hm; simp at hm
  | cons c rest ih =>
    intro h hm
    by_cases hc : c = '>'
    · subst hc; simp [afterFirstGt] at h
    · simp only [afterFirstGt, if_neg hc] at h
      rcases List.mem_cons.mp hm with h' | h'
      · exact hc h'.symm
      · exact ih h h'

/-! The tag stripper produces `noLtPair` output. -/

theorem mem_stripTags : ∀ (n : Nat) (l : Str), l.length ≤ n →
    ∀ c ∈ stripTags l, c ∈ l ∨ c = ' ' := by
  intro n
  induction n with
  | zero =>
    intro l h
    have : l = [] := List.eq_nil_of_length_eq_zero (Nat.le_zero.mp h)
    subst this
    intro c hc
    simp [stripTags, stripTagsGo] at hc
  | succ n ih =>
    intro l h c hc
    cases l with
    | nil => simp [stripTags, stripTagsGo] at hc
    | cons c0 rest =>
      rw [stripTags_cons] at hc
      simp only [List.length_cons] at h
      by_cases hc0 : c0 = '<'
      · rw [if_pos hc0] at hc
        cases rest with
        | nil =>
          simp only [List.mem_singleton] at hc
          exact Or.inl (by simp [hc])
        | cons r rs =>
          dsimp only at hc
          by_cases hr : r = '>'
          · rw [if_pos hr] at hc
            rcases List.mem_cons.mp hc with h' | h'
            · exact Or.inl (by simp [h'])
            · rcases ih (r :: rs) (by simpa using h) c h' with h'' | h''
              · exact Or.inl (List.mem_cons_of_mem _ h'')
              · exact Or.inr h''
          · rw [if_neg hr] at hc
            cases hgt : afterFirstGt (r :: rs) with
            | some after =>
              rw [hgt] at hc
              rcases List.mem_cons.mp hc with h' | h'
              · exact Or.inr h'
              · have hlen : after.length ≤ n := by
                  have := afterFirstGt_length hgt
                  omega
                rcases ih after hlen c h' with h'' | h''
                · obtain ⟨pre, hpre, -⟩ := afterFirstGt_eq hgt
                  refine Or.inl (List.mem_cons_of_mem _ ?_)
                  rw [hpre]
                  exact List.mem_append.mpr (Or.inr (List.mem_cons_of_mem _ h''))
                · exact Or.inr h''
            | none =>
              rw [hgt] at hc
              rcases List.mem_cons.mp hc with h' | h'
              · exact Or.inl (by simp [h'])
              · rcases ih (r :: rs) (by simpa using h) c h' with h'' | h''
                · exact Or.inl (List.mem_cons_of_mem _ h'')
                · exact Or.inr h''
      · rw [if_neg hc0] at hc
        rcases List.mem_cons.mp hc with h' | h'
        · exact Or.inl (by simp [h'])
        · rcases ih rest (by omega) c h' with h'' | h''
          · exact Or.inl (List.mem_cons_of_mem _ h'')
          · exact Or.inr h''

theorem stripTags_noLtPair_n : ∀ (n : Nat) (l : Str), l.length ≤ n →
    noLtPair (stripTags l) := by
  intro n
  induction n with
  | zero =>
    intro l h
    have : l = [] := List.eq_nil_of_length_eq_zero (Nat.le_zero.mp h)
    subst this
    exact noLtPair_nil
  | succ n ih =>
    intro l h
    cases l with
    | nil => exact noLtPair_nil
    | cons c0 rest =>
      rw [stripTags_cons]
      simp only [List.length_cons] at h
      by_cases hc0 : c0 = '<'
      · rw [if_pos hc0]
        cases rest with
        | nil => exact noLtPair_singleton c0
        | cons r rs =>
          dsimp only
          by_cases hr : r = '>'
          · rw [if_pos hr]
            subst hr hc0
            rw [stripTags_cons, if_neg (by decide : ¬('>' = '<'))]
            rw [noLtPair_cons_iff]
            refine ⟨fun _ _ => ⟨stripTags rs, rfl⟩, ?_⟩
            rw [noLtPair_cons_iff]
            exact ⟨fun h' => absurd h' (by decide), ih rs (by simp only [List.length_cons] at h; omega)⟩
          · rw [if_neg hr]
            cases hgt : afterFirstGt (r :: rs) with
            | some after =>
              rw [noLtPair_cons_iff]
              refine ⟨fun h' => absurd h' (by decide), ?_⟩
              have hlen : after.length ≤ n := by
                have := afterFirstGt_length hgt
                omega
              exact ih after hlen
            | none =>
              rw [noLtPair_cons_iff]
              constructor
              · intro _ hm
                rcases mem_stripTags (r :: rs).length (r :: rs) (le_refl _) '>' hm with h' | h'
                · exact absurd h' (not_mem_of_afterFirstGt_none hgt)
                · exact absurd h' (by decide)
              · exact ih (r :: rs) (by simpa using h)
      · rw [if_neg hc0]
        rw [noLtPair_cons_iff]
        constructor
        · intro h'; exact absurd h' hc0
        · exact ih rest (by omega)

theorem stripTags_noLtPair (l : Str) : noLtPair (stripTags l) :=
  stripTags_noLtPair_n l.length l (le_refl _)

/-! Whitespace collapsing: shape, membership, and `noLtPair` transport. -/

theorem collapseWS_cons_cons (c1 c2 : Char) (rest : Str) :
    collapseWS (c1 :: c2 :: rest) =
      if isJsSpace c1 = true then
        if isJsSpace c2 = true then collapseWS (c2 :: rest)
        else ' ' :: collapseWS (c2 :: rest)
      else c1 :: collapseWS (c2 :: rest) := by
  simp [collapseWS]

theorem collapseWS_cons_not_ws {c : Char} (r : Str) (h : isJsSpace c = false) :
    ∃ t, collapseWS (c :: r) = c :: t := by
  cases r with
  | nil => exact ⟨[], by simp [collapseWS, h]⟩
  | cons c2 rs => exact ⟨collapseWS (c2 :: rs), by rw [collapseWS_cons_cons, if_neg (by simp [h])]⟩

theorem mem_collapseWS : ∀ (l : Str), ∀ c ∈ collapseWS l, c ∈ l ∨ c = ' ' := by
  intro l
  induction l with
  | nil => intro c hc; simp [collapseWS] at hc
  | cons c1 rest ih =>
    intro c hc
    cases rest with
    | nil =>
      by_cases h1 : isJsSpace c1 = true
      · simp only [collapseWS, if_pos h1, List.mem_singleton] at hc
        exact Or.inr hc
      · simp only [collapseWS, if_neg h1, List.mem_singleton] at hc
        exact Or.inl (by simp [hc])
    | cons c2 rs =>
      rw [collapseWS_cons_cons] at hc
      by_cases h1 : isJsSpace c1 = true
      · rw [if_pos h1] at hc
        by_cases h2 : isJsSpace c2 = true
        · rw [if_pos h2] at hc
          rcases ih c hc with h' | h'
          · exact Or.inl (List.mem_cons_of_mem _ h')
          · exact Or.inr h'
        · rw [if_neg h2] at hc
          rcases List.mem_cons.mp hc with h' | h'
          · exact Or.inr h'
          · rcases ih c h' with h'' | h''
            · exact Or.inl (List.mem_cons_of_mem _ h'')
            · exact Or.inr h''
      · rw [if_neg h1] at hc
        rcases List.mem_cons.mp hc with h' | h'
        · exact Or.inl (by simp [h'])
        · rcases ih c h' with h'' | h''
          · exact Or.inl (List.mem_cons_of_mem _ h'')
          · exact Or.inr h''

theorem collapseWS_noLtPair : ∀ (l : Str), noLtPair l → noLtPair (collapseWS l) := by
  intro l
  induction l with
  | nil => intro _; exact noLtPair_nil
  | cons c1 rest ih =>
    intro h
    cases rest with
    | nil =>
      by_cases h1 : isJsSpace c1 = true
      · simp only [collapseWS, if_pos h1]
        exact noLtPair_singleton ' '
      · simp only [collapseWS, if_neg h1]
        exact noLtPair_singleton c1
    | cons c2 rs =>
      rw [collapseWS_cons_cons]
      by_cases h1 : isJsSpace c1 = true
      · rw [if_pos h1]
        by_cases h2 : isJsSpace c2 = true
        · rw [if_pos h2]
          exact ih (noLtPair_tail h)
        · rw [if_neg h2]
          rw [noLtPair_cons_iff]
          refine ⟨fun h' => absurd h' (by decide), ih (noLtPair_tail h)⟩
      · rw [if_neg h1]
        rw [noLtPair_cons_iff]
        constructor
        · intro hc1 hm
          subst hc1
          rcases mem_collapseWS _ '>' hm with h' | h'
          · obtain ⟨l2', hl2'⟩ := h [] (c2 :: rs) rfl h'
            simp only [List.cons.injEq] at hl2'
            obtain ⟨hc2, -⟩ := hl2'
            subst hc2
            obtain ⟨t, ht⟩ := collapseWS_cons_not_ws rs (by decide : isJsSpace '>' = false)
            rw [ht]
            exact ⟨t, rfl⟩
          · exact absurd h' (by decide)
        · exact ih (noLtPair_tail h)

/-! Whitespace normal form: all whitespace is `' '` and no two adjacent
whitespace characters remain. -/

theorem allWsSpace_of_subset {l l' : Str} (h : allWsSpace l) (hs : l' ⊆ l) :
    allWsSpace l' := fun c hc => h c (hs hc)

theorem collapseWS_allWsSpace : ∀ (l : Str), allWsSpace (collapseWS l) := by
  intro l
  induction l with
  | nil => intro c hc; simp [collapseWS] at hc
  | cons c1 rest ih =>
    intro c hc hws
    cases rest with
    | nil =>
      by_cases h1 : isJsSpace c1 = true
      · simp only [collapseWS, if_pos h1, List.mem_singleton] at hc
        exact hc
      · simp only [collapseWS, if_neg h1, List.mem_singleton] at hc
        rw [hc] at hws
        exact absurd hws (by simp [h1])
    | cons c2 rs =>
      rw [collapseWS_cons_cons] at hc
      by_cases h1 : isJsSpace c1 = true
      · rw [if_pos h1] at hc
        by_cases h2 : isJsSpace c2 = true
        · rw [if_pos h2] at hc
          exact ih c hc hws
        · rw [if_neg h2] at hc
          rcases List.mem_cons.mp hc with h' | h'
          · exact h'
          · exact ih c h' hws
      · rw [if_neg h1] at hc
        rcases List.mem_cons.mp hc with h' | h'
        · rw [h'] at hws
          exact absurd hws (by simp [h1])
        · exact ih c h' hws

theorem collapseWS_noWsPair : ∀ (l : Str), noWsPair (collapseWS l) := by
  intro l
  induction l with
  | nil => exact List.chain'_nil
  | cons c1 rest ih =>
    cases rest with
    | nil =>
      by_cases h1 : isJsSpace c1 = true
      · simp only [collapseWS, if_pos h1]
        exact List.chain'_singleton _
      · simp only [collapseWS, if_neg h1]
        exact List.chain'_singleton _
    | cons c2 rs =>
      rw [collapseWS_cons_cons]
      by_cases h1 : isJsSpace c1 = true
      · rw [if_pos h1]
        by_cases h2 : isJsSpace c2 = true
        · rw [if_pos h2]
          exact ih
        · rw [if_neg h2]
          refine List.chain'_cons'.mpr ⟨?_, ih⟩
          intro y hy
          obtain ⟨t, ht⟩ := collapseWS_cons_not_ws rs (Bool.not_eq_true _ ▸ h2)
          rw [ht] at hy
          simp only [List.head?_cons, Option.mem_def, Option.some.injEq] at hy
          rw [← hy]
          simp [h2]
      · rw [if_neg h1]
        refine List.chain'_cons'.mpr ⟨?_, ih⟩
        intro y _
        simp [h1]

theorem noWsPair_tail {c : Char} {l : Str} (h : noWsPair (c :: l)) : noWsPair l :=
  (List.chain'_cons'.mp h).2

theorem prefix_trimRight (l : Str) : trimRight l <+: l := by
  obtain ⟨t, ht⟩ := trimRight_append l
  exact ⟨t, ht.symm⟩

theorem noWsPair_trimStr {l : Str} (h : noWsPair l) : noWsPair (trimStr l) :=
  List.Chain'.prefix (h.suffix (List.dropWhile_suffix isJsSpace)) (prefix_trimRight (trimLeft l))

theorem allWsSpace_trimStr {l : Str} (h : allWsSpace l) : allWsSpace (trimStr l) :=
  allWsSpace_of_subset h
    (((prefix_trimRight (trimLeft l)).subset).trans (List.dropWhile_suffix isJsSpace).subset)

theorem trimStr_head_not_ws {l : Str} {c : Char} (h : (trimStr l).head? = some c) :
    isJsSpace c = false := by
  have hy : (trimLeft l).head? = some c := by
    obtain ⟨t, ht⟩ := trimRight_append (trimLeft l)
    cases hr : trimRight (trimLeft l) with
    | nil =>
      rw [trimStr, hr] at h
      simp at h
    | cons d ds =>
      rw [trimStr, hr] at h
      simp only [List.head?_cons, Option.some.injEq] at h
      rw [ht, hr, h]
      rfl
  have h2 := List.head?_dropWhile_not isJsSpace l
  rw [show trimLeft l = l.dropWhile isJsSpace from rfl] at hy
  rw [hy] at h2
  exact h2

theorem trimStr_getLast_not_ws {l : Str} {c : Char} (h : (trimStr l).getLast? = some c) :
    isJsSpace c = false := by
  have h2 : (trimStr l).getLast? = ((trimLeft l).reverse.dropWhile isJsSpace).head? := by
    rw [show trimStr l = ((trimLeft l).reverse.dropWhile isJsSpace).reverse from rfl]
    exact List.getLast?_reverse _
  rw [h2] at h
  have := List.head?_dropWhile_not isJsSpace (trimLeft l).reverse
  rw [h] at this
  exact this

theorem collapseWS_id : ∀ (l : Str), allWsSpace l → noWsPair l → collapseWS l = l := by
  intro l
  induction l with
  | nil => intro _ _; rfl
  | cons c1 rest ih =>
    intro hws hnp
    cases rest with
    | nil =>
      by_cases h1 : isJsSpace c1 = true
      · simp only [collapseWS, if_pos h1]
        rw [hws c1 (by simp) h1]
      · simp only [collapseWS, if_neg h1]
    | cons c2 rs =>
      rw [collapseWS_cons_cons]
      by_cases h1 : isJsSpace c1 = true
      · by_cases h2 : isJsSpace c2 = true
        · exfalso
          have := (List.chain'_cons'.mp hnp).1 c2 (by simp)
          exact this ⟨h1, h2⟩
        · rw [if_pos h1, if_neg h2]
          rw [ih (allWsSpace_of_subset hws (by simp [List.subset_cons_self]))
            (noWsPair_tail hnp)]
          rw [hws c1 (by simp) h1]
      · rw [if_neg h1]
        rw [ih (allWsSpace_of_subset hws (by simp [List.subset_cons_self]))
          (noWsPair_tail hnp)]

theorem trimStr_id (l : Str)
    (hh : ∀ c, l.head? = some c → isJsSpace c = false)
    (hl : ∀ c, l.getLast? = some c → isJsSpace c = false) :
    trimStr l = l := by
  have h1 : trimLeft l = l := by
    cases l with
    | nil => rfl
    | cons c cs =>
      show (c :: cs).dropWhile isJsSpace = c :: cs
      rw [List.dropWhile_cons, if_neg (by simp [hh c rfl])]
  rw [trimStr, h1]
  cases hr : l.reverse with
  | nil =>
    have : l = [] := by simpa using congrArg List.reverse hr
    simp [trimRight, this]
  | cons d ds =>
    have hd : l.getLast? = some d := by
      rw [← List.head?_reverse, hr, List.head?_cons]
    rw [trimRight, hr, List.dropWhile_cons, if_neg (by simp [hl d hd]), ← hr,
      List.reverse_reverse]

/-! Identity of the strippers on `noLtPair` input. -/

theorem stripTags_id_n : ∀ (n : Nat) (l : Str), l.length ≤ n → noLtPair l →
    stripTags l = l := by
  intro n
  induction n with
  | zero =>
    intro l h _
    have : l = [] := List.eq_nil_of_length_eq_zero (Nat.le_zero.mp h)
    subst this
    rfl
  | succ n ih =>
    intro l h hnp
    cases l with
    | nil => rfl
    | cons c rest =>
      rw [stripTags_cons]
      simp only [List.length_cons] at h
      by_cases hc : c = '<'
      · rw [if_pos hc]
        cases rest with
        | nil => rw [hc]
        | cons r rs =>
          dsimp only
          by_cases hr : r = '>'
          · rw [if_pos hr, ih (r :: rs) (by simpa using h) (noLtPair_tail hnp)]
          · rw [if_neg hr]
            have hnm : '>' ∉ (r :: rs) := by
              intro hm
              obtain ⟨l', hl'⟩ := hnp [] (r :: rs) (by rw [hc]; rfl) hm
              simp only [List.cons.injEq] at hl'
              exact hr hl'.1
            rw [afterFirstGt_none hnm]
            dsimp only
            rw [ih (r :: rs) (by simpa using h) (noLtPair_tail hnp)]
      · rw [if_neg hc, ih rest (by omega) (noLtPair_tail hnp)]

theorem stripTags_id {l : Str} (hnp : noLtPair l) : stripTags l = l :=
  stripTags_id_n l.length l (le_refl _) hnp

theorem stripElem_id_n (name : Str) (hne : name ≠ [])
    (hhead : ∀ c, name.head? = some c → c ≠ '>') :
    ∀ (n : Nat) (l : Str), l.length ≤ n → noLtPair l → stripElem name l = l := by
  intro n
  induction n with
  | zero =>
    intro l h _
    have : l = [] := List.eq_nil_of_length_eq_zero (Nat.le_zero.mp h)
    subst this
    rfl
  | succ n ih =>
    intro l h hnp
    cases l with
    | nil => rfl
    | cons c rest =>
      rw [stripElem_cons]
      simp only [List.length_cons] at h
      by_cases hp : c = '<' ∧ ciPrefix name rest = true
      · rw [if_pos hp]
        by_cases hm : '>' ∈ rest
        · exfalso
          obtain ⟨l', hl'⟩ := hnp [] rest (by rw [hp.1]; rfl) hm
          cases name with
          | nil => exact hne rfl
          | cons n0 ns =>
            have hp2 := hp.2
            rw [hl'] at hp2
            simp only [ciPrefix, Bool.and_eq_true, decide_eq_true_eq] at hp2
            have : lowerChar '>' = '>' := by decide
            rw [this] at hp2
            exact hhead n0 rfl hp2.1.symm
        · have hnone : afterFirstGt (rest.drop name.length) = none :=
            afterFirstGt_none (fun hmem => hm (List.drop_subset _ _ hmem))
          rw [hnone]
          dsimp only
          rw [ih rest (by omega) (noLtPair_tail hnp)]
      · rw [if_neg hp, ih rest (by omega) (noLtPair_tail hnp)]

theorem stripComments_id_n : ∀ (n : Nat) (l : Str), l.length ≤ n → noLtPair l →
    stripComments l = l := by
  intro n
  induction n with
  | zero =>
    intro l h _
    have : l = [] := List.eq_nil_of_length_eq_zero (Nat.le_zero.mp h)
    subst this
    rfl
  | succ n ih =>
    intro l h hnp
    cases l with
    | nil => rfl
    | cons c rest =>
      rw [stripComments_cons]
      simp only [List.length_cons] at h
      by_cases hp : ['<', '!', '-', '-'].isPrefixOf (c :: rest) = true
      · rw [if_pos hp]
        obtain ⟨t, ht⟩ := List.isPrefixOf_iff_prefix.mp hp
        simp only [List.cons_append, List.cons.injEq] at ht
        obtain ⟨hc, hrest⟩ := ht
        have hm : '>' ∉ rest := by
          intro hm
          obtain ⟨l', hl'⟩ := hnp [] rest (by rw [← hc]; rfl) hm
          rw [← hrest] at hl'
          simp at hl'
        cases hci : afterFirstCI ['-', '-', '>'] ((c :: rest).drop 4) with
        | none =>
          dsimp only
          rw [ih rest (by omega) (noLtPair_tail hnp)]
        | some after =>
          exfalso
          obtain ⟨pre, suf, hsplit, hcp, -⟩ := afterFirstCI_eq _ hci
          obtain ⟨d, hd, hde⟩ := ciPrefix_exists hcp '>' (by simp)
          have hd' : d = '>' := lowerChar_eq_gt hde
          subst hd'
          apply hm
          have : '>' ∈ (c :: rest).drop 4 := by
            rw [hsplit]
            exact List.mem_append.mpr (Or.inr hd)
          exact List.drop_subset 3 rest (by simpa using this)
      · rw [if_neg hp, ih rest (by omega) (noLtPair_tail hnp)]

theorem replaceAll_self_n (pat : Str) : ∀ (n : Nat) (l : Str), l.length ≤ n →
    replaceAll pat pat l = l := by
  intro n
  induction n with
  | zero =>
    intro l h
    have : l = [] := List.eq_nil_of_length_eq_zero (Nat.le_zero.mp h)
    subst this
    rfl
  | succ n ih =>
    intro l h
    cases l with
    | nil => rfl
    | cons c rest =>
      rw [replaceAll_cons]
      simp only [List.length_cons] at h
      by_cases hp : pat ≠ [] ∧ pat.isPrefixOf (c :: rest) = true
      · rw [if_pos hp]
        obtain ⟨t, htl⟩ := List.isPrefixOf_iff_prefix.mp hp.2
        have hdrop : (c :: rest).drop pat.length = t := by
          rw [← htl]
          exact List.drop_left pat t
        rw [hdrop, ih t ?_, htl]
        have h1 : 0 < pat.length := List.length_pos.mpr hp.1
        have h2 := congrArg List.length htl
        simp only [List.length_append, List.length_cons] at h2
        omega
      · rw [if_neg hp, ih rest (by omega)]

theorem replaceAll_self (pat l : Str) : replaceAll pat pat l = l :=
  replaceAll_self_n pat l.length l (le_refl _)

theorem replaceAll_id_of_not_infix (pat rep : Str) : ∀ (n : Nat) (l : Str),
    l.length ≤ n → ¬ pat <:+: l → replaceAll pat rep l = l := by
  intro n
  induction n with
  | zero =>
    intro l h _
    have : l = [] := List.eq_nil_of_length_eq_zero (Nat.le_zero.mp h)
    subst this
    rfl
  | succ n ih =>
    intro l h hni
    cases l with
    | nil => rfl
    | cons c rest =>
      rw [replaceAll_cons]
      simp only [List.length_cons] at h
      by_cases hp : pat ≠ [] ∧ pat.isPrefixOf (c :: rest) = true
      · have hpre := List.isPrefixOf_iff_prefix.mp hp.2
        exact absurd hpre.isInfix hni
      · rw [if_neg hp, ih rest (by omega)
          (fun hi => hni (hi.trans (List.suffix_cons c rest).isInfix))]

/-! No occurrence of the pattern survives a global replace whose
replacement shares no character with the pattern, and the later stages
cannot create one. -/

theorem prefix_replaceAll_reflect (pat rep : Str) (hrepne : rep ≠ [])
    (hdisj : ∀ c ∈ rep, c ∉ pat) : ∀ (n : Nat) (rest p' : Str), rest.length ≤ n →
    p' ≠ [] → (∀ c ∈ p', c ∈ pat) → p' <+: replaceAll pat rep rest → p' <+: rest := by
  intro n
  induction n with
  | zero =>
    intro rest p' h hne _ hpre
    have : rest = [] := List.eq_nil_of_length_eq_zero (Nat.le_zero.mp h)
    subst this
    exact hpre
  | succ n ih =>
    intro rest p' h hne hsub hpre
    cases rest with
    | nil => exact hpre
    | cons c rest' =>
      rw [replaceAll_cons] at hpre
      simp only [List.length_cons] at h
      by_cases hp : pat ≠ [] ∧ pat.isPrefixOf (c :: rest') = true
      · rw [if_pos hp] at hpre
        exfalso
        cases rep with
        | nil => exact hrepne rfl
        | cons r0 rrest =>
          cases p' with
          | nil => exact hne rfl
          | cons p0 p'' =>
            rw [List.cons_append] at hpre
            rw [List.cons_prefix_cons] at hpre
            exact hdisj r0 (List.mem_cons_self r0 rrest)
              (hpre.1 ▸ hsub p0 (List.mem_cons_self p0 p''))
      · rw [if_neg hp] at hpre
        cases p' with
        | nil => exact absurd rfl hne
        | cons p0 p'' =>
          rw [List.cons_prefix_cons] at hpre
          by_cases hp'' : p'' = []
          · subst hp''
            rw [hpre.1]
            exact ⟨rest', rfl⟩
          · have : p'' <+: rest' := ih rest' p'' (by omega) hp''
              (fun d hd => hsub d (List.mem_cons_of_mem _ hd)) hpre.2
            rw [hpre.1]
            exact (List.cons_prefix_cons).mpr ⟨rfl, this⟩

theorem infix_peel (pat : Str) (hpat : pat ≠ []) :
    ∀ (a x : Str), (∀ c ∈ a, c ∉ pat) → pat <:+: (a ++ x) → pat <:+: x := by
  intro a
  induction a with
  | nil => intro x _ h; exact h
  | cons c a' ih =>
    intro x hdisj h
    rw [List.cons_append, List.infix_cons_iff] at h
    rcases h with h | h
    · exfalso
      cases pat with
      | nil => exact hpat rfl
      | cons p0 p'' =>
        rw [List.cons_prefix_cons] at h
        exact hdisj c (List.mem_cons_self c a') (h.1 ▸ List.mem_cons_self p0 p'')
    · exact ih x (fun d hd => hdisj d (List.mem_cons_of_mem _ hd)) h

theorem not_infix_replaceAll (pat rep : Str) (hpat : pat ≠ []) (hrepne : rep ≠ [])
    (hdisj : ∀ c ∈ rep, c ∉ pat) : ∀ (n : Nat) (l : Str), l.length ≤ n →
    ¬ pat <:+: replaceAll pat rep l := by
  intro n
  induction n with
  | zero =>
    intro l h hi
    have : l = [] := List.eq_nil_of_length_eq_zero (Nat.le_zero.mp h)
    subst this
    exact hpat (List.eq_nil_of_infix_nil hi)
  | succ n ih =>
    intro l h hi
    cases l with
    | nil => exact hpat (List.eq_nil_of_infix_nil hi)
    | cons c rest =>
      rw [replaceAll_cons] at hi
      simp only [List.length_cons] at h
      by_cases hp : pat ≠ [] ∧ pat.isPrefixOf (c :: rest) = true
      · rw [if_pos hp] at hi
        have h2 : pat <:+: replaceAll pat rep ((c :: rest).drop pat.length) :=
          infix_peel pat hpat rep _ hdisj hi
        have hlen : ((c :: rest).drop pat.length).length ≤ n := by
          have : 0 < pat.length := List.length_pos.mpr hp.1
          simp only [List.length_drop, List.length_cons]
          omega
        exact ih _ hlen h2
      · rw [if_neg hp] at hi
        rw [List.infix_cons_iff] at hi
        rcases hi with hi | hi
        · cases pat with
          | nil => exact hpat rfl
          | cons p0 p'' =>
            rw [List.cons_prefix_cons] at hi
            by_cases hp'' : p'' = []
            · subst hp''
              exact hp ⟨hpat, List.isPrefixOf_iff_prefix.mpr
                (by rw [hi.1]; exact ⟨rest, rfl⟩)⟩
            · have : p'' <+: rest := prefix_replaceAll_reflect (p0 :: p'') rep hrepne hdisj
                n rest p'' (by omega) hp''
                (fun d hd => List.mem_cons_of_mem _ hd) hi.2
              exact hp ⟨hpat, List.isPrefixOf_iff_prefix.mpr
                (by rw [hi.1]; exact (List.cons_prefix_cons).mpr ⟨rfl, this⟩)⟩
        · exact ih rest (by omega) hi

theorem not_infix_replaceAll' (pat rep l : Str) (hpat : pat ≠ []) (hrepne : rep ≠ [])
    (hdisj : ∀ c ∈ rep, c ∉ pat) : ¬ pat <:+: replaceAll pat rep l :=
  not_infix_replaceAll pat rep hpat hrepne hdisj l.length l (le_refl _)

theorem prefix_stripTags_reflect : ∀ (n : Nat) (l : Str), l.length ≤ n →
    ∀ p', (∀ c ∈ p', c ≠ '<' ∧ c ≠ ' ') → p' <+: stripTags l → p' <+: l := by
  intro n
  induction n with
  | zero =>
    intro l h p' _ hpre
    have : l = [] := List.eq_nil_of_length_eq_zero (Nat.le_zero.mp h)
    subst this
    exact hpre
  | succ n ih =>
    intro l h p' hchar hpre
    cases p' with
    | nil => exact List.nil_prefix
    | cons p0 p'' =>
      cases l with
      | nil => exact hpre
      | cons c rest =>
        rw [stripTags_cons] at hpre
        simp only [List.length_cons] at h
        by_cases hc : c = '<'
        · rw [if_pos hc] at hpre
          cases rest with
          | nil =>
            rw [List.cons_prefix_cons] at hpre
            exact absurd (hpre.1.trans hc) (hchar p0 (List.mem_cons_self _ _)).1
          | cons r rs =>
            dsimp only at hpre
            by_cases hr : r = '>'
            · rw [if_pos hr, List.cons_prefix_cons] at hpre
              exact absurd (hpre.1.trans hc) (hchar p0 (List.mem_cons_self _ _)).1
            · rw [if_neg hr] at hpre
              cases hgt : afterFirstGt (r :: rs) with
              | some after =>
                rw [hgt] at hpre
                rw [List.cons_prefix_cons] at hpre
                exact absurd hpre.1 (hchar p0 (List.mem_cons_self _ _)).2
              | none =>
                rw [hgt] at hpre
                rw [List.cons_prefix_cons] at hpre
                exact absurd (hpre.1.trans hc) (hchar p0 (List.mem_cons_self _ _)).1
        · rw [if_neg hc, List.cons_prefix_cons] at hpre
          have := ih rest (by omega) p''
            (fun d hd => hchar d (List.mem_cons_of_mem _ hd)) hpre.2
          rw [hpre.1]
          exact (List.cons_prefix_cons).mpr ⟨rfl, this⟩

theorem infix_stripTags_reflect : ∀ (n : Nat) (l : Str), l.length ≤ n →
    ∀ pat, pat ≠ [] → (∀ c ∈ pat, c ≠ '<' ∧ c ≠ ' ') →
    pat <:+: stripTags l → pat <:+: l := by
  intro n
  induction n with
  | zero =>
    intro l h pat hpat _ hi
    have : l = [] := List.eq_nil_of_length_eq_zero (Nat.le_zero.mp h)
    subst this
    exact hi
  | succ n ih =>
    intro l h pat hpat hchar hi
    cases l with
    | nil => exact hi
    | cons c rest =>
      rw [stripTags_cons] at hi
      simp only [List.length_cons] at h
      by_cases hc : c = '<'
      · rw [if_pos hc] at hi
        cases rest with
        | nil =>
          rw [List.infix_cons_iff] at hi
          rcases hi with hi | hi
          · cases pat with
            | nil => exact absurd rfl hpat
            | cons p0 p'' =>
              rw [List.cons_prefix_cons] at hi
              exact absurd (hi.1.trans hc) (hchar p0 (List.mem_cons_self _ _)).1
          · exact absurd (List.eq_nil_of_infix_nil hi) hpat
        | cons r rs =>
          dsimp only at hi
          by_cases hr : r = '>'
          · rw [if_pos hr, List.infix_cons_iff] at hi
            rcases hi with hi | hi
            · cases pat with
              | nil => exact absurd rfl hpat
              | cons p0 p'' =>
                rw [List.cons_prefix_cons] at hi
                exact absurd (hi.1.trans hc) (hchar p0 (List.mem_cons_self _ _)).1
            · exact (ih (r :: rs) (by simpa using h) pat hpat hchar hi).trans
                (List.suffix_cons c _).isInfix
          · rw [if_neg hr] at hi
            cases hgt : afterFirstGt (r :: rs) with
            | some after =>
              rw [hgt, List.infix_cons_iff] at hi
              rcases hi with hi | hi
              · cases pat with
                | nil => exact absurd rfl hpat
                | cons p0 p'' =>
                  rw [List.cons_prefix_cons] at hi
                  exact absurd hi.1 (hchar p0 (List.mem_cons_self _ _)).2
              · have hlen : after.length ≤ n := by
                  have := afterFirstGt_length hgt
                  omega
                have h2 : pat <:+: after := ih after hlen pat hpat hchar hi
                obtain ⟨pre, hpre, -⟩ := afterFirstGt_eq hgt
                have hsuf : after <:+ (r :: rs) := ⟨pre ++ ['>'], by simp [hpre]⟩
                exact (h2.trans hsuf.isInfix).trans (List.suffix_cons c _).isInfix
            | none =>
              rw [hgt, List.infix_cons_iff] at hi
              rcases hi with hi | hi
              · cases pat with
                | nil => exact absurd rfl hpat
                | cons p0 p'' =>
                  rw [List.cons_prefix_cons] at hi
                  exact absurd (hi.1.trans hc) (hchar p0 (List.mem_cons_self _ _)).1
              · exact (ih (r :: rs) (by simpa using h) pat hpat hchar hi).trans
                  (List.suffix_cons c _).isInfix
      · rw [if_neg hc, List.infix_cons_iff] at hi
        rcases hi with hi | hi
        · cases pat with
          | nil => exact absurd rfl hpat
          | cons p0 p'' =>
            rw [List.cons_prefix_cons] at hi
            have := prefix_stripTags_reflect n rest (by omega) p''
              (fun d hd => hchar d (List.mem_cons_of_mem _ hd)) hi.2
            refine List.IsPrefix.isInfix ?_
            rw [hi.1]
            exact (List.cons_prefix_cons).mpr ⟨rfl, this⟩
        · exact (ih rest (by omega) pat hpat hchar hi).trans
            (List.suffix_cons c _).isInfix

theorem collapseWS_head_ws : ∀ (r : Str) (c : Char), isJsSpace c = true →
    (collapseWS (c :: r)).head? = some ' ' := by
  intro r
  induction r with
  | nil => intro c hc; simp [collapseWS, hc]
  | cons c2 rs ih =>
    intro c hc
    rw [collapseWS_cons_cons, if_pos hc]
    by_cases h2 : isJsSpace c2 = true
    · rw [if_pos h2]
      exact ih c2 h2
    · rw [if_neg h2]
      rfl

theorem prefix_collapse_reflect : ∀ (l p' : Str),
    (∀ c ∈ p', isJsSpace c = false) → p' <+: collapseWS l → p' <+: l := by
  intro l
  induction l with
  | nil => intro p' _ hpre; exact hpre
  | cons c1 rest ih =>
    intro p' hchar hpre
    cases p' with
    | nil => exact List.nil_prefix
    | cons p0 p'' =>
      by_cases h1 : isJsSpace c1 = true
      · exfalso
        have hh := collapseWS_head_ws rest c1 h1
        obtain ⟨t, ht⟩ := hpre
        rw [← ht, List.cons_append, List.head?_cons] at hh
        simp only [Option.some.injEq] at hh
        have hp0 := hchar p0 (List.mem_cons_self _ _)
        rw [hh] at hp0
        exact absurd hp0 (by decide)
      · cases rest with
        | nil =>
          simpa [collapseWS, h1] using hpre
        | cons c2 rs =>
          rw [collapseWS_cons_cons, if_neg h1, List.cons_prefix_cons] at hpre
          have := ih p'' (fun d hd => hchar d (List.mem_cons_of_mem _ hd)) hpre.2
          rw [hpre.1]
          exact (List.cons_prefix_cons).mpr ⟨rfl, this⟩

theorem infix_collapse_reflect : ∀ (l pat : Str), pat ≠ [] →
    (∀ c ∈ pat, isJsSpace c = false) → pat <:+: collapseWS l → pat <:+: l := by
  intro l
  induction l with
  | nil => intro pat _ _ hi; exact hi
  | cons c1 rest ih =>
    intro pat hpat hchar hi
    cases rest with
    | nil =>
      by_cases h1 : isJsSpace c1 = true
      · exfalso
        rw [show collapseWS [c1] = [' '] from by simp [collapseWS, h1]] at hi
        rw [List.infix_cons_iff] at hi
        rcases hi with hi | hi
        · cases pat with
          | nil => exact hpat rfl
          | cons p0 p'' =>
            rw [List.cons_prefix_cons] at hi
            have := hchar p0 (List.mem_cons_self _ _)
            rw [hi.1] at this
            exact absurd this (by decide)
        · exact hpat (List.eq_nil_of_infix_nil hi)
      · rw [show collapseWS [c1] = [c1] from by simp [collapseWS, h1]] at hi
        exact hi
    | cons c2 rs =>
      rw [collapseWS_cons_cons] at hi
      by_cases h1 : isJsSpace c1 = true
      · rw [if_pos h1] at hi
        by_cases h2 : isJsSpace c2 = true
        · rw [if_pos h2] at hi
          exact (ih pat hpat hchar hi).trans (List.suffix_cons c1 _).isInfix
        · rw [if_neg h2, List.infix_cons_iff] at hi
          rcases hi with hi | hi
          · exfalso
            cases pat with
            | nil => exact hpat rfl
            | cons p0 p'' =>
              rw [List.cons_prefix_cons] at hi
              have := hchar p0 (List.mem_cons_self _ _)
              rw [hi.1] at this
              exact absurd this (by decide)
          · exact (ih pat hpat hchar hi).trans (List.suffix_cons c1 _).isInfix
      · rw [if_neg h1, List.infix_cons_iff] at hi
        rcases hi with hi | hi
        · cases pat with
          | nil => exact absurd rfl hpat
          | cons p0 p'' =>
            rw [List.cons_prefix_cons] at hi
            have := prefix_collapse_reflect (c2 :: rs) p''
              (fun d hd => hchar d (List.mem_cons_of_mem _ hd)) hi.2
            refine List.IsPrefix.isInfix ?_
            rw [hi.1]
            exact (List.cons_prefix_cons).mpr ⟨rfl, this⟩
        · exact (ih pat hpat hchar hi).trans (List.suffix_cons c1 _).isInfix

theorem trimStr_isInfix (l : Str) : trimStr l <:+: l :=
  ((prefix_trimRight (trimLeft l)).isInfix).trans (List.dropWhile_suffix isJsSpace).isInfix

theorem extractTextContent_eq (html : Str) :
    extractTextContent html =
      trimStr (collapseWS (stripTags (replaceAll ['&', 'n', 'b', 's', 'p', ';'] [' ']
        (stripComments (stripElem ['s', 't', 'y', 'l', 'e']
          (stripElem ['s', 'c', 'r', 'i', 'p', 't'] html)))))) := by
  simp only [extractTextContent]
  rw [replaceAll_self, replaceAll_self, replaceAll_self, replaceAll_self, replaceAll_self]

/-- Claim C5: the content normalizer is idempotent — re-applying the full
four-step pipeline (strip script/style/comments, decode, strip tags,
collapse whitespace) to its own output is a no-op. -/
theorem extractTextContent_idempotent (html : Str) :
    extractTextContent (extractTextContent html) = extractTextContent html := by
  obtain ⟨t, ht⟩ : ∃ t, extractTextContent html = t := ⟨_, rfl⟩
  rw [ht]
  have htt0 : t = trimStr (collapseWS (stripTags (replaceAll ['&', 'n', 'b', 's', 'p', ';'] [' ']
      (stripComments (stripElem ['s', 't', 'y', 'l', 'e']
        (stripElem ['s', 'c', 'r', 'i', 'p', 't'] html)))))) := by
    rw [← ht, extractTextContent_eq]
  obtain ⟨X, hX⟩ : ∃ X, replaceAll ['&', 'n', 'b', 's', 'p', ';'] [' ']
      (stripComments (stripElem ['s', 't', 'y', 'l', 'e']
        (stripElem ['s', 'c', 'r', 'i', 'p', 't'] html))) = X := ⟨_, rfl⟩
  rw [hX] at htt0
  have ht_noLt : noLtPair t := by
    rw [htt0]
    exact noLtPair_trimStr (collapseWS_noLtPair _ (stripTags_noLtPair X))
  have ht_allWs : allWsSpace t := by
    rw [htt0]
    exact allWsSpace_trimStr (collapseWS_allWsSpace _)
  have ht_noWsPair : noWsPair t := by
    rw [htt0]
    exact noWsPair_trimStr (collapseWS_noWsPair _)
  have ht_head : ∀ c, t.head? = some c → isJsSpace c = false := by
    rw [htt0]
    intro c hc
    exact trimStr_head_not_ws hc
  have ht_last : ∀ c, t.getLast? = some c → isJsSpace c = false := by
    rw [htt0]
    intro c hc
    exact trimStr_getLast_not_ws hc
  have ht_nbsp : ¬ ['&', 'n', 'b', 's', 'p', ';'] <:+: t := by
    intro hi
    have h1 : ¬ ['&', 'n', 'b', 's', 'p', ';'] <:+: X := by
      rw [← hX]
      exact not_infix_replaceAll' _ _ _ (by decide) (by decide) (by decide)
    apply h1
    have h2 : ['&', 'n', 'b', 's', 'p', ';'] <:+: collapseWS (stripTags X) := by
      refine hi.trans ?_
      rw [htt0]
      exact trimStr_isInfix _
    have h3 : ['&', 'n', 'b', 's', 'p', ';'] <:+: stripTags X :=
      infix_collapse_reflect _ _ (by decide) (by decide) h2
    exact infix_stripTags_reflect X.length X (le_refl _) _ (by decide) (by decide) h3
  have e1 : stripElem ['s', 'c', 'r', 'i', 'p', 't'] t = t :=
    stripElem_id_n ['s', 'c', 'r', 'i', 'p', 't'] (by decide)
      (by intro c hc; simp only [List.head?_cons, Option.some.injEq] at hc; subst hc; decide)
      t.length t (le_refl _) ht_noLt
  have e2 : stripElem ['s', 't', 'y', 'l', 'e'] t = t :=
    stripElem_id_n ['s', 't', 'y', 'l', 'e'] (by decide)
      (by intro c hc; simp only [List.head?_cons, Option.some.injEq] at hc; subst hc; decide)
      t.length t (le_refl _) ht_noLt
  have e3 : stripComments t = t :=
    stripComments_id_n t.length t (le_refl _) ht_noLt
  have e4 : replaceAll ['&', 'n', 'b', 's', 'p', ';'] [' '] t = t :=
    replaceAll_id_of_not_infix _ _ t.length t (le_refl _) ht_nbsp
  have e10 : stripTags t = t := stripTags_id ht_noLt
  have e11 : collapseWS t = t := collapseWS_id t ht_allWs ht_noWsPair
  have e12 : trimStr t = t := trimStr_id t ht_head ht_last
  rw [extractTextContent_eq t, e1, e2, e3, e4, e10, e11, e12]

end ScrapingEngine
